import Mathlib

/-!
# LP Builder — verification of the configuration-document export/render pipeline

A shallow embedding of `src/app.py` (a Streamlit no-code landing-page builder).
The parts embedded here are the ones the specification's claims are about:

* `image_to_base64` — uploaded bytes → `data:<mime>;base64,<payload>` URI;
* `extract_base64_image` / `create_export_zip` — the export pass that walks the
  document, converts embedded data URIs to `images/<name>_<NNN>.<ext>` files and
  zips `index.html` plus those files;
* the live-preview path of `main` that deep-copies the document and overwrites
  shop-card ranks with 1-based positions before rendering;
* the JSON-load toolbar action (all-or-nothing load into the session);
* `json.dumps(..., ensure_ascii=False, indent=2)` / `json.loads` as used by the
  save/load buttons, modelled by a concrete serializer and recursive-descent
  parser over a JSON value type.

Strings are modelled as `List Char` (`Str`), bytes as `Nat`s below 256.
Python's in-place dict mutation is modelled by explicit state passing; the
mutable session (which object a variable aliases) is modelled by a small heap
of document cells, so that `copy.deepcopy` is a fresh allocation and the
frame claims ("the in-session document is never mutated") are real statements
about distinct cells rather than artifacts of purity.

`base64.b64decode` can raise on malformed payloads; fallible steps therefore
return `Option`, `none` modelling the raised exception aborting the export.
-/

/-- Strings of the model: lists of characters (Python `str`). -/
abbrev Str := List Char

/-- Byte strings of the model: lists of naturals, each below 256 (Python `bytes`). -/
abbrev Bytes := List Nat

/-- All entries are real bytes. -/
def BytesOk (bs : Bytes) : Prop := ∀ b ∈ bs, b < 256

instance : DecidablePred BytesOk := fun bs => by
  unfold BytesOk; infer_instance

/-! ## Decimal digit strings

`f"{n:03d}"` (used for the image counter) and `str(n)` (used by the JSON
serializer for integers) both print `n` in decimal; `:03d` left-pads with `'0'`
to width three. -/

/-- The character of a decimal digit. -/
def digitChar (d : Nat) : Char := Char.ofNat (48 + d)

/-- Little-endian decimal digits, by fuel-bounded recursion (so that the kernel
can evaluate it on concrete inputs; `fuel ≥ n` makes it total). -/
def natDigitsRevAux : Nat → Nat → List Nat
  | 0, _ => []
  | fuel + 1, n => if n = 0 then [] else n % 10 :: natDigitsRevAux fuel (n / 10)

theorem natDigitsRevAux_eq : ∀ {fuel n : Nat}, n ≤ fuel →
    natDigitsRevAux fuel n = Nat.digits 10 n
  | 0, n, h => by
    have : n = 0 := by omega
    subst this; simp [natDigitsRevAux]
  | fuel + 1, n, h => by
    by_cases h0 : n = 0
    · subst h0; simp [natDigitsRevAux]
    · rw [natDigitsRevAux, if_neg h0,
        natDigitsRevAux_eq (by have := Nat.div_lt_self (by omega : 0 < n) (by omega : 1 < 10); omega),
        Nat.digits_def' (by omega : 1 < 10) (by omega : 0 < n)]

/-- Decimal representation of a natural number, most significant digit first
(Python `str(n)` for `n ≥ 0`). -/
def natChars (n : Nat) : Str :=
  if n = 0 then ['0'] else ((natDigitsRevAux n n).map digitChar).reverse

theorem natChars_eq (n : Nat) :
    natChars n = if n = 0 then ['0'] else ((Nat.digits 10 n).map digitChar).reverse := by
  unfold natChars
  rw [natDigitsRevAux_eq le_rfl]

/-- Read a digit string back as a natural number (characters beyond digits give
garbage; only used on digit strings). -/
def charsToNat (l : Str) : Nat := Nat.ofDigits 10 (l.reverse.map (fun c => c.toNat - 48))

theorem digitChar_toNat_sub : ∀ d < 10, (digitChar d).toNat - 48 = d := by decide

theorem digitChar_ne_underscore : ∀ d < 10, digitChar d ≠ '_' := by decide

theorem charsToNat_natChars (n : Nat) : charsToNat (natChars n) = n := by
  rw [natChars_eq]; unfold charsToNat
  by_cases h : n = 0
  · subst h; decide
  · simp only [h, if_false, List.reverse_reverse, List.map_map]
    have hmap : (Nat.digits 10 n).map ((fun c => c.toNat - 48) ∘ digitChar) =
        (Nat.digits 10 n).map id := by
      refine List.map_congr_left ?_
      intro d hd
      simpa using digitChar_toNat_sub d (Nat.digits_lt_base (by norm_num) hd)
    rw [hmap, List.map_id, Nat.ofDigits_digits]

theorem natChars_ne_underscore (n : Nat) : ∀ c ∈ natChars n, c ≠ '_' := by
  intro c hc
  rw [natChars_eq] at hc
  by_cases h : n = 0
  · subst h; simp at hc; subst hc; decide
  · simp only [h, if_false, List.mem_reverse, List.mem_map] at hc
    obtain ⟨d, hd, rfl⟩ := hc
    exact digitChar_ne_underscore d (Nat.digits_lt_base (by norm_num) hd)

/-- Python `f"{n:03d}"`: decimal digits of `n`, left-padded with `'0'` to width
at least three. -/
def pad3 (n : Nat) : Str := List.replicate (3 - (natChars n).length) '0' ++ natChars n

theorem ofDigits_replicate_zero (k : Nat) : Nat.ofDigits 10 (List.replicate k 0) = 0 := by
  induction k with
  | zero => rfl
  | succ k ih => simp [List.replicate_succ, Nat.ofDigits_cons, ih]

theorem charsToNat_pad3 (n : Nat) : charsToNat (pad3 n) = n := by
  unfold pad3 charsToNat
  rw [List.reverse_append, List.map_append]
  rw [Nat.ofDigits_append]
  have h0 : (List.replicate (3 - (natChars n).length) '0').reverse.map
      (fun c => c.toNat - 48) = List.replicate (3 - (natChars n).length) 0 := by
    rw [List.reverse_replicate, List.map_replicate]
    congr 1
  rw [h0, ofDigits_replicate_zero, Nat.mul_zero, Nat.add_zero]
  exact charsToNat_natChars n

theorem pad3_injective {m n : Nat} (h : pad3 m = pad3 n) : m = n := by
  have := charsToNat_pad3 m
  rw [h, charsToNat_pad3] at this
  exact this.symm

theorem pad3_ne_underscore (n : Nat) : ∀ c ∈ pad3 n, c ≠ '_' := by
  intro c hc
  unfold pad3 at hc
  rcases List.mem_append.1 hc with h | h
  · have := List.eq_of_mem_replicate h
    subst this; decide
  · exact natChars_ne_underscore n c h

theorem three_le_pad3_length (n : Nat) : 3 ≤ (pad3 n).length := by
  unfold pad3
  rw [List.length_append, List.length_replicate]
  omega

theorem pad3_length_of_lt_1000 {n : Nat} (h : n < 1000) : (pad3 n).length = 3 := by
  have hlen : (natChars n).length ≤ 3 := by
    rw [natChars_eq]
    by_cases h0 : n = 0
    · subst h0; decide
    · simp only [h0, if_false, List.length_reverse, List.length_map]
      calc (Nat.digits 10 n).length ≤ (Nat.digits 10 999).length :=
            Nat.le_digits_len_le 10 n 999 (by omega)
        _ = 3 := by norm_num
  unfold pad3
  rw [List.length_append, List.length_replicate]
  omega

/-! ## Base64 (`base64.b64encode` / `base64.b64decode`)

`b64encode` groups the input bytes in threes and emits four alphabet characters
per group, padding a trailing group with `'='`.  `b64decode` (with its default
`validate=False`) first discards characters outside the alphabet, then decodes
four characters at a time; our model returns `none` where the Python function
raises (`binascii.Error`) on a malformed payload. -/

/-- The standard base64 alphabet, in value order. -/
def b64Alphabet : Str :=
  ("ABCDEFGHIJKLMNOPQRSTUVWXYZabcdefghijklmnopqrstuvwxyz0123456789+/").data

/-- Character encoding a 6-bit value. -/
def sextetChar (i : Nat) : Char := b64Alphabet.getD i 'A'

/-- Inverse lookup: 6-bit value of an alphabet character. -/
def sextetVal (c : Char) : Option Nat :=
  let i := b64Alphabet.indexOf c
  if i < 64 then some i else none

/-- `base64.b64encode` on a byte string. -/
def b64encode : Bytes → Str
  | [] => []
  | [a] => [sextetChar (a / 4), sextetChar (a % 4 * 16), '=', '=']
  | [a, b] => [sextetChar (a / 4), sextetChar (a % 4 * 16 + b / 16),
      sextetChar (b % 16 * 4), '=']
  | a :: b :: c :: rest =>
      sextetChar (a / 4) :: sextetChar (a % 4 * 16 + b / 16) ::
      sextetChar (b % 16 * 4 + c / 64) :: sextetChar (c % 64) :: b64encode rest

/-- Decode groups of four alphabet characters (padding only in the last group). -/
def b64decodeGroups : Str → Option Bytes
  | [] => some []
  | c1 :: c2 :: c3 :: c4 :: rest => do
      let s1 ← sextetVal c1
      let s2 ← sextetVal c2
      if c3 = '=' then
        if c4 = '=' ∧ rest = [] then some [s1 * 4 + s2 / 16] else none
      else do
        let s3 ← sextetVal c3
        if c4 = '=' then
          if rest = [] then some [s1 * 4 + s2 / 16, s2 % 16 * 16 + s3 / 4] else none
        else do
          let s4 ← sextetVal c4
          let tail ← b64decodeGroups rest
          some ((s1 * 4 + s2 / 16) :: (s2 % 16 * 16 + s3 / 4) :: (s3 % 4 * 64 + s4) :: tail)
  | _ => none

/-- `base64.b64decode` (default `validate=False`): discard characters outside
the alphabet, then decode; `none` models a raised `binascii.Error`. -/
def b64decode (s : Str) : Option Bytes :=
  b64decodeGroups (s.filter (fun c => c ∈ b64Alphabet || c = '='))

theorem sextetVal_sextetChar : ∀ i < 64, sextetVal (sextetChar i) = some i := by decide

theorem sextetChar_ne_eq : ∀ i < 64, sextetChar i ≠ '=' := by decide

theorem sextetChar_mem_alphabet : ∀ i < 64, sextetChar i ∈ b64Alphabet := by decide

/-- Every character emitted by the encoder survives the decoder's discard filter. -/
theorem b64encode_filter (B : Bytes) (hB : BytesOk B) :
    (b64encode B).filter (fun c => c ∈ b64Alphabet || c = '=') = b64encode B := by
  rw [List.filter_eq_self]
  intro c hc
  have key : ∀ (l : Bytes), BytesOk l → ∀ c ∈ b64encode l,
      c ∈ b64Alphabet ∨ c = '=' := by
    intro l
    induction l using b64encode.induct with
    | case1 => intro _ c hc; simp [b64encode] at hc
    | case2 a =>
      intro hok c hc
      have ha := hok a (by simp)
      simp only [b64encode, List.mem_cons, List.mem_singleton] at hc
      rcases hc with rfl | rfl | rfl | h
      · exact Or.inl (sextetChar_mem_alphabet _ (by omega))
      · exact Or.inl (sextetChar_mem_alphabet _ (by omega))
      · exact Or.inr rfl
      · simp at h; subst h; exact Or.inr rfl
    | case3 a b =>
      intro hok c hc
      have ha := hok a (by simp)
      have hb := hok b (by simp)
      simp only [b64encode, List.mem_cons, List.mem_singleton] at hc
      rcases hc with rfl | rfl | rfl | h
      · exact Or.inl (sextetChar_mem_alphabet _ (by omega))
      · exact Or.inl (sextetChar_mem_alphabet _ (by omega))
      · exact Or.inl (sextetChar_mem_alphabet _ (by omega))
      · simp at h; subst h; exact Or.inr rfl
    | case4 a b cc rest ih =>
      intro hok ch hch
      have ha := hok a (by simp)
      have hb := hok b (by simp)
      have hc' := hok cc (by simp)
      simp only [b64encode, List.mem_cons] at hch
      rcases hch with rfl | rfl | rfl | rfl | h
      · exact Or.inl (sextetChar_mem_alphabet _ (by omega))
      · exact Or.inl (sextetChar_mem_alphabet _ (by omega))
      · exact Or.inl (sextetChar_mem_alphabet _ (by omega))
      · exact Or.inl (sextetChar_mem_alphabet _ (by omega))
      · exact ih (fun x hx => hok x (by simp [hx])) ch h
  rcases key B hB c hc with h | h
  · simp [h]
  · simp [h]

theorem b64decodeGroups_encode (B : Bytes) (hB : BytesOk B) :
    b64decodeGroups (b64encode B) = some B := by
  induction B using b64encode.induct with
  | case1 => rfl
  | case2 a =>
    have ha := hB a (by simp)
    have h1 : a / 4 < 64 := by omega
    have h2 : a % 4 * 16 < 64 := by omega
    simp [b64encode, b64decodeGroups, sextetVal_sextetChar _ h1,
      sextetVal_sextetChar _ h2]
    omega
  | case3 a b =>
    have ha := hB a (by simp)
    have hb := hB b (by simp)
    have h1 : a / 4 < 64 := by omega
    have h2 : a % 4 * 16 + b / 16 < 64 := by omega
    have h3 : b % 16 * 4 < 64 := by omega
    have hne : sextetChar (b % 16 * 4) ≠ '=' := sextetChar_ne_eq _ h3
    simp [b64encode, b64decodeGroups, sextetVal_sextetChar _ h1,
      sextetVal_sextetChar _ h2, sextetVal_sextetChar _ h3, hne]
    omega
  | case4 a b c rest ih =>
    have ha := hB a (by simp)
    have hb := hB b (by simp)
    have hc := hB c (by simp)
    have h1 : a / 4 < 64 := by omega
    have h2 : a % 4 * 16 + b / 16 < 64 := by omega
    have h3 : b % 16 * 4 + c / 64 < 64 := by omega
    have h4 : c % 64 < 64 := by omega
    have hne3 : sextetChar (b % 16 * 4 + c / 64) ≠ '=' := sextetChar_ne_eq _ h3
    have hne4 : sextetChar (c % 64) ≠ '=' := sextetChar_ne_eq _ h4
    have ihrest := ih (fun x hx => hB x (by simp [hx]))
    simp [b64encode, b64decodeGroups, sextetVal_sextetChar _ h1,
      sextetVal_sextetChar _ h2, sextetVal_sextetChar _ h3, sextetVal_sextetChar _ h4,
      hne3, hne4, ihrest]
    refine ⟨by omega, by omega, by omega⟩

/-- Round-trip of the base64 codec: decoding an encoding recovers the bytes. -/
theorem b64decode_b64encode (B : Bytes) (hB : BytesOk B) :
    b64decode (b64encode B) = some B := by
  rw [b64decode, b64encode_filter B hB, b64decodeGroups_encode B hB]

/-! ## `image_to_base64` and the export-time extraction primitive

`extract_base64_image` (a closure inside `create_export_zip`) matches the
value against `re.match(r"data:(image/\w+);base64,(.*)", data_uri, re.DOTALL)`.
`\w+` is one or more word characters; since `';'` is not a word character the
regex can only succeed by taking the maximal word-character run after
`"data:image/"`, so the match is modelled by that deterministic split.  Note
that `'+'` is not a word character either, so a MIME type such as
`image/svg+xml` can never be matched by this regex.

(Python's `\w` additionally matches non-ASCII word characters; ASCII suffices
for every MIME type and every input considered here.) -/

/-- `image_to_base64`: uploaded bytes and MIME type to a data URI
`data:<mime>;base64,<payload>`. -/
def image_to_base64 (bytes_data : Bytes) (mime : Str) : Str :=
  ("data:").data ++ mime ++ (";base64,").data ++ b64encode bytes_data

/-- A regex word character (`\w`, ASCII part): letter, digit or underscore. -/
def isWordChar (c : Char) : Bool := c.isAlphanum || c = '_'

/-- Drop an expected literal head from a string, or fail. -/
def stripPre : Str → Str → Option Str
  | [], s => some s
  | _ :: _, [] => none
  | p :: ps, c :: cs => if c = p then stripPre ps cs else none

theorem stripPre_append (p rest : Str) : stripPre p (p ++ rest) = some rest := by
  induction p with
  | nil => rfl
  | cons c cs ih => simp [stripPre, ih]

/-- The regex `data:(image/\w+);base64,(.*)` (with `re.DOTALL`): on success,
the captured groups `(mime, payload)` where `mime = "image/" + <word run>`. -/
def matchDataUri (s : Str) : Option (Str × Str) := do
  let r ← stripPre ("data:image/").data s
  let w := r.takeWhile isWordChar
  if w = [] then none
  else do
    let payload ← stripPre (";base64,").data (r.dropWhile isWordChar)
    some (("image/").data ++ w, payload)

/-- The `ext_map` lookup `ext_map.get(mime, ".png")`. -/
def extOf (mime : Str) : Str :=
  if mime = ("image/png").data then (".png").data
  else if mime = ("image/jpeg").data then (".jpg").data
  else if mime = ("image/gif").data then (".gif").data
  else if mime = ("image/webp").data then (".webp").data
  else if mime = ("image/svg+xml").data then (".svg").data
  else (".png").data

/-- The closure state of `create_export_zip`: `img_counter[0]` and the
`image_files` dict (insertion-ordered, keyed by filename). -/
structure ExSt where
  counter : Nat
  image_files : List (Str × Bytes)
  deriving DecidableEq, Repr

/-- The initial closure state. -/
def ExSt.init : ExSt := ⟨0, []⟩

/-- `f"{prefix}_{img_counter[0]:03d}{ext}"`. -/
def mkFilename (pfx : Str) (n : Nat) (ext : Str) : Str :=
  pfx ++ '_' :: (pad3 n ++ ext)

/-- `extract_base64_image(data_uri, prefix)`: pass non-data values through
unchanged; on a regex match, bump the shared counter, record the decoded bytes
under the new filename, and return the relative path `images/<filename>`.
`none` models the `binascii.Error` raised on a malformed base64 payload. -/
def extract_base64_image (st : ExSt) (data_uri : Str) (pfx : Str) :
    Option (Str × ExSt) :=
  if data_uri = [] then some (data_uri, st)
  else if ¬ (("data:").data).isPrefixOf data_uri then some (data_uri, st)
  else
    match matchDataUri data_uri with
    | none => some (data_uri, st)
    | some (mime, payload) =>
        let ext := extOf mime
        let n := st.counter + 1
        let filename := mkFilename pfx n ext
        match b64decode payload with
        | none => none
        | some raw_bytes =>
            some (("images/").data ++ filename,
              ⟨n, st.image_files ++ [(filename, raw_bytes)]⟩)

/-! ## Filenames never collide

`mkFilename pfx n ext` embeds the counter value `n` between the last `'_'`
and the extension; since the padded counter contains no underscore and the
possible extensions are a fixed finite set, two equal filenames must carry the
same counter value.  The counter is bumped on every extraction, so filenames
recorded by one export pass are pairwise distinct. -/

/-- The extensions `ext_map` can produce. -/
def extList : List Str :=
  [['.', 'p', 'n', 'g'], ['.', 'j', 'p', 'g'], ['.', 'g', 'i', 'f'],
   ['.', 'w', 'e', 'b', 'p'], ['.', 's', 'v', 'g']]

theorem extOf_mem_extList (mime : Str) : extOf mime ∈ extList := by
  unfold extOf
  split_ifs <;> decide

theorem extCancel {A B E₁ E₂ : Str} (h₁ : E₁ ∈ extList) (h₂ : E₂ ∈ extList)
    (h : A ++ E₁ = B ++ E₂) : E₁ = E₂ ∧ A = B := by
  have h' := congrArg List.reverse h
  simp only [List.reverse_append] at h'
  simp only [extList, List.mem_cons, List.not_mem_nil, or_false] at h₁ h₂
  rcases h₁ with rfl | rfl | rfl | rfl | rfl <;>
    rcases h₂ with rfl | rfl | rfl | rfl | rfl <;>
    simp_all

theorem splitAtUnderscore :
    ∀ {X₁ : Str} {Y₁ : Str} {X₂ Y₂ : Str}, (∀ c ∈ X₁, c ≠ '_') → (∀ c ∈ X₂, c ≠ '_') →
      X₁ ++ '_' :: Y₁ = X₂ ++ '_' :: Y₂ → X₁ = X₂ ∧ Y₁ = Y₂ := by
  intro X₁
  induction X₁ with
  | nil =>
    intro Y₁ X₂ Y₂ _ hX₂ h
    cases X₂ with
    | nil => simpa using h
    | cons d ds =>
      exfalso
      simp only [List.nil_append, List.cons_append, List.cons.injEq] at h
      exact hX₂ d (by simp) h.1.symm
  | cons c cs ih =>
    intro Y₁ X₂ Y₂ hX₁ hX₂ h
    cases X₂ with
    | nil =>
      exfalso
      simp only [List.cons_append, List.nil_append, List.cons.injEq] at h
      exact hX₁ c (by simp) h.1
    | cons d ds =>
      simp only [List.cons_append, List.cons.injEq] at h
      obtain ⟨rfl, h2⟩ := h
      obtain ⟨rfl, hy⟩ := ih (fun x hx => hX₁ x (by simp [hx]))
        (fun x hx => hX₂ x (by simp [hx])) h2
      exact ⟨rfl, hy⟩

theorem mkFilename_counter_inj {p₁ p₂ e₁ e₂ : Str} {n₁ n₂ : Nat}
    (he₁ : e₁ ∈ extList) (he₂ : e₂ ∈ extList)
    (h : mkFilename p₁ n₁ e₁ = mkFilename p₂ n₂ e₂) : n₁ = n₂ := by
  unfold mkFilename at h
  have h' : (p₁ ++ '_' :: pad3 n₁) ++ e₁ = (p₂ ++ '_' :: pad3 n₂) ++ e₂ := by
    simpa [List.append_assoc] using h
  obtain ⟨-, hpe⟩ := extCancel he₁ he₂ h'
  have h'' := congrArg List.reverse hpe
  simp only [List.reverse_append, List.reverse_cons, List.append_assoc,
    List.singleton_append] at h''
  have hsplit := splitAtUnderscore
    (fun c hc => pad3_ne_underscore n₁ c (List.mem_reverse.1 hc))
    (fun c hc => pad3_ne_underscore n₂ c (List.mem_reverse.1 hc)) h''
  exact pad3_injective (List.reverse_injective hsplit.1)

/-! ## The configuration document

A typed mirror of the JSON configuration tree (spec §3 / `data/default_config.json`
as read by the editors and the export pass).  Keys the export pass reads with
`.get(..., default)` semantics are modelled as plain fields where an absent key
and the default behave identically along every embedded code path (an absent
image URL behaves like the empty string: both are falsy and both pass through
extraction unchanged). -/

structure Site where
  title : Str
  subtitle : Str
  logo_text : Str
  logo_url : Str
  ad_label : Str
  deriving DecidableEq, Repr

structure Colors where
  main : Str
  sub : Str
  text : Str
  bg : Str
  accent : Str
  deriving DecidableEq, Repr

structure Hero where
  bg_image_url : Str
  deriving DecidableEq, Repr

structure Metric where
  label : Str
  value : Str
  rating : Str
  deriving DecidableEq, Repr

structure CompShop where
  name : Str
  logo_url : Str
  link : Str
  cta_text : Str
  metrics : List Metric
  deriving DecidableEq, Repr

structure ComparisonTop where
  heading : Str
  shops : List CompShop
  deriving DecidableEq, Repr

structure RecommendSection where
  heading : Str
  deriving DecidableEq, Repr

structure DetailRow where
  label : Str
  cells : List Str
  deriving DecidableEq, Repr

structure DetailTable where
  columns : List Str
  rows : List DetailRow
  footer_note : Str
  deriving DecidableEq, Repr

structure Feature where
  title : Str
  text : Str
  image_url : Str
  deriving DecidableEq, Repr

structure Campaign where
  text : Str
  sub_text : Str
  image_url : Str
  deriving DecidableEq, Repr

structure Visibility where
  info : Bool
  features : Bool
  reviews : Bool
  campaign : Bool
  cta : Bool
  deriving DecidableEq, Repr

structure Shop where
  id : Str
  rank : Int
  name : Str
  logo_url : Str
  catch_copy : Str
  sub_catch : Str
  link : Str
  info : List (Str × Str)
  features : List Feature
  reviews : List Str
  campaign : Campaign
  cta_text : Str
  cta_sub : Str
  visibility : Visibility
  extra_images : List Str
  deriving DecidableEq, Repr

structure FlowStep where
  title : Str
  text : Str
  icon_type : Str
  icon : Str
  icon_image_url : Str
  deriving DecidableEq, Repr

structure FlowSec where
  heading : Str
  steps : List FlowStep
  deriving DecidableEq, Repr

structure SummaryShop where
  name : Str
  features : Str
  scope : Str
  speed : Str
  cta_text : Str
  link : Str
  deriving DecidableEq, Repr

structure SummaryTable where
  heading : Str
  shops : List SummaryShop
  deriving DecidableEq, Repr

structure FooterLink where
  name : Str
  link : Str
  deriving DecidableEq, Repr

structure Footer where
  copyright : Str
  shop_links : List FooterLink
  column_links : List FooterLink
  deriving DecidableEq, Repr

structure Document where
  site : Site
  colors : Colors
  hero : Hero
  comparison_top : ComparisonTop
  recommend_section : RecommendSection
  detail_table : DetailTable
  shops : List Shop
  flow : FlowSec
  summary_table : SummaryTable
  footer : Footer
  sections_visibility : List (Str × Bool)
  deriving DecidableEq, Repr

/-! ## The export pass (`create_export_zip`)

The Python function deep-copies the document, then walks it in a fixed order —
site logo, hero background, comparison-top logos, shop cards (logo, campaign
image, feature images, extra slots), flow-step icons — replacing each field by
the result of `extract_base64_image`, threading the shared closure state.
Python's in-place field assignments become functional record updates; the
threaded `ExSt` is the closure state `(img_counter, image_files)`.  `none`
propagates the exception a malformed base64 payload raises. -/

/-- Thread the extraction state through a list, left to right (a `for` loop
whose body may call `extract_base64_image`). -/
def mapExtract (f : ExSt → α → Option (α × ExSt)) : ExSt → List α → Option (List α × ExSt)
  | st, [] => some ([], st)
  | st, x :: xs =>
    match f st x with
    | none => none
    | some (y, st₁) =>
      match mapExtract f st₁ xs with
      | none => none
      | some (ys, st₂) => some (y :: ys, st₂)

/-- `s["logo_url"] = extract_base64_image(s["logo_url"], "comp_logo")`. -/
def rewriteCompShop (st : ExSt) (s : CompShop) : Option (CompShop × ExSt) :=
  match extract_base64_image st s.logo_url ("comp_logo").data with
  | none => none
  | some (logo, st₁) => some ({s with logo_url := logo}, st₁)

/-- `if feat.get("image_url"): feat["image_url"] = extract_base64_image(..., "feature")`. -/
def rewriteFeature (st : ExSt) (feat : Feature) : Option (Feature × ExSt) :=
  if feat.image_url ≠ [] then
    match extract_base64_image st feat.image_url ("feature").data with
    | none => none
    | some (u, st₁) => some ({feat with image_url := u}, st₁)
  else some (feat, st)

/-- `if eimg: s["extra_images"][ei] = extract_base64_image(eimg, "extra")`. -/
def rewriteExtra (st : ExSt) (eimg : Str) : Option (Str × ExSt) :=
  if eimg ≠ [] then extract_base64_image st eimg ("extra").data
  else some (eimg, st)

/-- One shop card: logo, then campaign image (when present), then each
feature's image, then each extra slot, in order. -/
def rewriteCampaign (st : ExSt) (c : Campaign) : Option (Campaign × ExSt) :=
  if c.image_url ≠ [] then
    match extract_base64_image st c.image_url ("campaign").data with
    | none => none
    | some (u, st₁) => some ({c with image_url := u}, st₁)
  else some (c, st)

def rewriteShop (st : ExSt) (s : Shop) : Option (Shop × ExSt) :=
  match extract_base64_image st s.logo_url ("shop_logo").data with
  | none => none
  | some (logo, st₁) =>
    match rewriteCampaign st₁ s.campaign with
    | none => none
    | some (camp, st₂) =>
      match mapExtract rewriteFeature st₂ s.features with
      | none => none
      | some (feats, st₃) =>
        match mapExtract rewriteExtra st₃ s.extra_images with
        | none => none
        | some (extras, st₄) =>
          some ({s with logo_url := logo, campaign := camp, features := feats, extra_images := extras}, st₄)

/-- `if step.get("icon_image_url"): step["icon_image_url"] = extract_base64_image(..., "flow_icon")`. -/
def rewriteFlowStep (st : ExSt) (step : FlowStep) : Option (FlowStep × ExSt) :=
  if step.icon_image_url ≠ [] then
    match extract_base64_image st step.icon_image_url ("flow_icon").data with
    | none => none
    | some (u, st₁) => some ({step with icon_image_url := u}, st₁)
  else some (step, st)

/-- The image-rewriting phase of `create_export_zip`: the traversal that turns
`export_config = copy.deepcopy(config)` into the rewritten document rendered
into `index.html`, together with the final closure state. -/
def rewriteSiteLogo (st : ExSt) (site : Site) : Option (Str × ExSt) :=
  if site.logo_url ≠ [] then
    extract_base64_image st site.logo_url ("logo").data
  else some (site.logo_url, st)

def exportRewrite (config : Document) : Option (Document × ExSt) :=
  match rewriteSiteLogo ExSt.init config.site with
  | none => none
  | some (site_logo, st₁) =>
    match extract_base64_image st₁ config.hero.bg_image_url ("hero").data with
    | none => none
    | some (hero_bg, st₂) =>
      match mapExtract rewriteCompShop st₂ config.comparison_top.shops with
      | none => none
      | some (comp_shops, st₃) =>
        match mapExtract rewriteShop st₃ config.shops with
        | none => none
        | some (shops, st₄) =>
          match mapExtract rewriteFlowStep st₄ config.flow.steps with
          | none => none
          | some (steps, st₅) =>
            some ({config with
                    site := {config.site with logo_url := site_logo},
                    hero := {config.hero with bg_image_url := hero_bg},
                    comparison_top := {config.comparison_top with shops := comp_shops},
                    shops := shops,
                    flow := {config.flow with steps := steps}}, st₅)

/-- A ZIP entry's payload: `zf.writestr` is given either the HTML string or an
image's raw bytes. -/
inductive ZipData where
  | html : Str → ZipData
  | bytes : Bytes → ZipData
  deriving DecidableEq, Repr

/-- `create_export_zip(config)`: rewrite the deep copy, render it with
`for_export=True`, and write `index.html` followed by one `images/<filename>`
entry per extracted file.  The Jinja template is an external collaborator, so
the renderer is a parameter. -/
def create_export_zip (render_html : Document → Bool → Str) (config : Document) :
    Option (List (Str × ZipData)) :=
  match exportRewrite config with
  | none => none
  | some (export_config, st) =>
    some ((("index.html").data, ZipData.html (render_html export_config true)) ::
      st.image_files.map (fun fb => (("images/").data ++ fb.1, ZipData.bytes fb.2)))

/-! ## The filename invariant of one export pass -/

/-- Does a value match the extraction pattern (nonempty, starts with `data:`,
and the regex succeeds)?  One file is recorded per matched field. -/
def matchesDataUri (uri : Str) : Bool :=
  !uri.isEmpty && (("data:").data).isPrefixOf uri && (matchDataUri uri).isSome

/-- `ChainNames lo hi names`: the names are, in order, filenames whose embedded
counters strictly increase from above `lo` up to at most `hi`. -/
def ChainNames : Nat → Nat → List Str → Prop
  | lo, hi, [] => lo ≤ hi
  | lo, hi, f :: fs =>
      ∃ p n e, lo < n ∧ e ∈ extList ∧ f = mkFilename p n e ∧ ChainNames n hi fs

theorem ChainNames.le : ∀ {lo hi : Nat} {fs : List Str}, ChainNames lo hi fs → lo ≤ hi
  | _, _, [], h => h
  | _, _, _ :: _, ⟨_, _, _, hlt, _, _, htail⟩ => le_trans (le_of_lt hlt) htail.le

theorem ChainNames.mono : ∀ {lo hi hi' : Nat} {fs : List Str},
    ChainNames lo hi fs → hi ≤ hi' → ChainNames lo hi' fs
  | _, _, _, [], h, hle => le_trans h hle
  | _, _, _, _ :: _, ⟨p, n, e, hlt, he, hf, htail⟩, hle =>
      ⟨p, n, e, hlt, he, hf, htail.mono hle⟩

theorem ChainNames.append_one : ∀ {lo hi n : Nat} {fs : List Str} {p e : Str},
    ChainNames lo hi fs → hi < n → e ∈ extList →
    ChainNames lo n (fs ++ [mkFilename p n e])
  | lo, hi, n, [], p, e, h, hn, he =>
      have h' : lo ≤ hi := h
      ⟨p, n, e, by omega, he, rfl, le_refl n⟩
  | lo, hi, n, f :: fs, p, e, ⟨q, m, d, hlt, hd, hf, htail⟩, hn, he =>
      ⟨q, m, d, hlt, hd, hf, htail.append_one hn he⟩

theorem ChainNames.mem : ∀ {lo hi : Nat} {fs : List Str}, ChainNames lo hi fs →
    ∀ f ∈ fs, ∃ p n e, lo < n ∧ n ≤ hi ∧ e ∈ extList ∧ f = mkFilename p n e := by
  intro lo hi fs
  induction fs generalizing lo with
  | nil => intro _ f hf; simp at hf
  | cons g gs ih =>
    rintro ⟨p, n, e, hlt, he, hg, htail⟩ f hf
    rcases List.mem_cons.1 hf with rfl | hmem
    · exact ⟨p, n, e, hlt, htail.le, he, hg⟩
    · obtain ⟨q, m, d, h1, h2, h3, h4⟩ := ih htail f hmem
      exact ⟨q, m, d, by omega, h2, h3, h4⟩

theorem ChainNames.nodup : ∀ {lo hi : Nat} {fs : List Str},
    ChainNames lo hi fs → fs.Nodup := by
  intro lo hi fs
  induction fs generalizing lo with
  | nil => intro _; exact List.nodup_nil
  | cons g gs ih =>
    rintro ⟨p, n, e, hlt, he, hg, htail⟩
    refine List.nodup_cons.2 ⟨?_, ih htail⟩
    intro hmem
    obtain ⟨q, m, d, h1, _, h3, h4⟩ := htail.mem g hmem
    subst hg
    have := mkFilename_counter_inj he h3 h4
    omega

/-- The invariant carried through an export pass: the recorded filenames form
a strictly increasing counter chain bounded by the current counter. -/
def ExInv (st : ExSt) : Prop :=
  ChainNames 0 st.counter (st.image_files.map Prod.fst)

theorem ExInv.init : ExInv ExSt.init := le_refl 0

/-- What one call of `extract_base64_image` does to the closure state: the
state is unchanged on a non-match, and on a match exactly one file, whose path
is the returned value, is appended; the invariant is preserved either way. -/
theorem extract_spec {st st' : ExSt} {uri pfx out : Str}
    (h : extract_base64_image st uri pfx = some (out, st')) :
    (ExInv st → ExInv st') ∧
    ∃ Δ : List (Str × Bytes), st'.image_files = st.image_files ++ Δ ∧
      Δ.length = (if matchesDataUri uri then 1 else 0) ∧
      ∀ fb ∈ Δ, out = ("images/").data ++ fb.1 := by
  unfold extract_base64_image at h
  by_cases h1 : uri = []
  · rw [if_pos h1] at h
    obtain ⟨rfl, rfl⟩ : uri = out ∧ st = st' := by
      simpa using h
    exact ⟨id, [], by simp, by simp [matchesDataUri, h1], by simp⟩
  rw [if_neg h1] at h
  by_cases h2 : (("data:").data).isPrefixOf uri
  · rw [if_neg (by simpa using h2)] at h
    cases hm : matchDataUri uri with
    | none =>
      rw [hm] at h
      obtain ⟨rfl, rfl⟩ : uri = out ∧ st = st' := by simpa using h
      exact ⟨id, [], by simp, by simp [matchesDataUri, hm], by simp⟩
    | some mp =>
      rw [hm] at h
      obtain ⟨mime, payload⟩ := mp
      simp only at h
      cases hd : b64decode payload with
      | none => rw [hd] at h; cases h
      | some raw =>
        rw [hd] at h
        obtain ⟨hout, hst⟩ : (("images/").data ++ mkFilename pfx (st.counter + 1) (extOf mime)) = out ∧
            (⟨st.counter + 1, st.image_files ++ [(mkFilename pfx (st.counter + 1) (extOf mime), raw)]⟩ : ExSt) = st' := by
          simpa using h
    
        subst hout hst
        constructor
        · intro hinv
          unfold ExInv at hinv ⊢
          simp only [List.map_append, List.map_cons, List.map_nil]
          exact hinv.append_one (Nat.lt_succ_self _) (extOf_mem_extList mime)
        · refine ⟨[(mkFilename pfx (st.counter + 1) (extOf mime), raw)], by simp, ?_, by simp⟩
        
          have : matchesDataUri uri = true := by
            simp [matchesDataUri, h1, h2, hm]
          simp [this]
  · rw [if_pos (by simpa using h2)] at h
    obtain ⟨rfl, rfl⟩ : uri = out ∧ st = st' := by simpa using h
    refine ⟨id, [], by simp, ?_, by simp⟩
    simp [matchesDataUri, h2]

/-! ## Counting matched fields and collecting image references -/

/-- Number of files one field contributes (1 when it matches the pattern). -/
def countUri (uri : Str) : Nat := if matchesDataUri uri then 1 else 0

theorem countUri_nil : countUri [] = 0 := by
  simp [countUri, matchesDataUri]

def Feature.imgCount (f : Feature) : Nat := countUri f.image_url

def CompShop.imgCount (s : CompShop) : Nat := countUri s.logo_url

def Shop.imgCount (s : Shop) : Nat :=
  countUri s.logo_url + countUri s.campaign.image_url +
    (s.features.map Feature.imgCount).sum + (s.extra_images.map countUri).sum

def FlowStep.imgCount (f : FlowStep) : Nat := countUri f.icon_image_url

/-- The number of data-URI images the export pass extracts from a document:
one per image-bearing field whose value matches the pattern. -/
def Document.imgCount (d : Document) : Nat :=
  countUri d.site.logo_url + countUri d.hero.bg_image_url +
    (d.comparison_top.shops.map CompShop.imgCount).sum +
    (d.shops.map Shop.imgCount).sum +
    (d.flow.steps.map FlowStep.imgCount).sum

def Feature.imageRefs (f : Feature) : List Str := [f.image_url]

def CompShop.imageRefs (s : CompShop) : List Str := [s.logo_url]

def Shop.imageRefs (s : Shop) : List Str :=
  s.logo_url :: s.campaign.image_url ::
    (s.features.flatMap Feature.imageRefs ++ s.extra_images)

def FlowStep.imageRefs (f : FlowStep) : List Str := [f.icon_image_url]

/-- All image-bearing field values of a document, in traversal order. -/
def Document.imageRefs (d : Document) : List Str :=
  d.site.logo_url :: d.hero.bg_image_url ::
    (d.comparison_top.shops.flatMap CompShop.imageRefs ++
     d.shops.flatMap Shop.imageRefs ++
     d.flow.steps.flatMap FlowStep.imageRefs)

/-- Specification of one rewriting step on an `α`-value: it preserves the
filename invariant, appends `count x` files, and every appended file's
`images/` path is stored in the rewritten value (among its image references). -/
def StepSpec (f : ExSt → α → Option (α × ExSt)) (count : α → Nat)
    (refs : α → List Str) : Prop :=
  ∀ st x y st', f st x = some (y, st') →
    (ExInv st → ExInv st') ∧
    ∃ Δ : List (Str × Bytes), st'.image_files = st.image_files ++ Δ ∧
      Δ.length = count x ∧
      ∀ fb ∈ Δ, (("images/").data ++ fb.1) ∈ refs y

theorem mapExtract_spec {f : ExSt → α → Option (α × ExSt)} {count : α → Nat}
    {refs : α → List Str} (hf : StepSpec f count refs) :
    ∀ {st : ExSt} {xs : List α} {ys : List α} {st' : ExSt},
      mapExtract f st xs = some (ys, st') →
      (ExInv st → ExInv st') ∧
      ∃ Δ : List (Str × Bytes), st'.image_files = st.image_files ++ Δ ∧
        Δ.length = (xs.map count).sum ∧
        ∀ fb ∈ Δ, (("images/").data ++ fb.1) ∈ ys.flatMap refs := by
  intro st xs
  induction xs generalizing st with
  | nil =>
    intro ys st' h
    obtain ⟨rfl, rfl⟩ : ([] : List α) = ys ∧ st = st' := by
      simpa [mapExtract] using h
    exact ⟨id, [], by simp, by simp, by simp⟩
  | cons x xs ih =>
    intro ys st' h
    rw [mapExtract] at h
    split at h
    next => exact absurd h (by simp)
    next y st₁ hx =>
    split at h
    next => exact absurd h (by simp)
    next ys₁ st₂ hxs =>
    obtain ⟨rfl, rfl⟩ : y :: ys₁ = ys ∧ st₂ = st' := by simpa using h
    obtain ⟨hinv₁, Δ₁, hfiles₁, hlen₁, hmem₁⟩ := hf st x y st₁ hx
    obtain ⟨hinv₂, Δ₂, hfiles₂, hlen₂, hmem₂⟩ := ih hxs
    refine ⟨fun hi => hinv₂ (hinv₁ hi), Δ₁ ++ Δ₂, ?_, ?_, ?_⟩
    · rw [hfiles₂, hfiles₁, List.append_assoc]
    · simp [hlen₁, hlen₂]
    · intro fb hfb
      rcases List.mem_append.1 hfb with hfb | hfb
      · exact List.mem_flatMap.2 ⟨y, by simp, hmem₁ fb hfb⟩
      · obtain ⟨z, hz, hpath⟩ := List.mem_flatMap.1 (hmem₂ fb hfb)
        exact List.mem_flatMap.2 ⟨z, by simp [hz], hpath⟩

theorem rewriteCompShop_spec : StepSpec rewriteCompShop CompShop.imgCount CompShop.imageRefs := by
  intro st s y st' h
  rw [rewriteCompShop] at h
  split at h
  next => exact absurd h (by simp)
  next logo st₁ hx =>
  obtain ⟨rfl, rfl⟩ : ({s with logo_url := logo} : CompShop) = y ∧ st₁ = st' := by
    simpa using h
  obtain ⟨hinv, Δ, hfiles, hlen, hmem⟩ := extract_spec hx
  refine ⟨hinv, Δ, hfiles, by simpa [CompShop.imgCount, countUri] using hlen,
    fun fb hfb => ?_⟩
  simp only [CompShop.imageRefs, List.mem_singleton]
  exact (hmem fb hfb).symm

theorem rewriteFeature_spec : StepSpec rewriteFeature Feature.imgCount Feature.imageRefs := by
  intro st f y st' h
  rw [rewriteFeature] at h
  by_cases hne : f.image_url ≠ []
  · rw [if_pos hne] at h
    split at h
    next => exact absurd h (by simp)
    next u st₁ hx =>
    obtain ⟨rfl, rfl⟩ : ({f with image_url := u} : Feature) = y ∧ st₁ = st' := by
      simpa using h
    obtain ⟨hinv, Δ, hfiles, hlen, hmem⟩ := extract_spec hx
    refine ⟨hinv, Δ, hfiles, by simpa [Feature.imgCount, countUri] using hlen,
      fun fb hfb => ?_⟩
    simp only [Feature.imageRefs, List.mem_singleton]
    exact (hmem fb hfb).symm
  · rw [if_neg hne] at h
    obtain ⟨rfl, rfl⟩ : f = y ∧ st = st' := by simpa using h
    have : f.image_url = [] := by simpa using hne
    exact ⟨id, [], by simp, by simp [Feature.imgCount, this, countUri_nil], by simp⟩

theorem rewriteExtra_spec : StepSpec rewriteExtra countUri (fun e => [e]) := by
  intro st e y st' h
  rw [rewriteExtra] at h
  by_cases hne : e ≠ []
  · rw [if_pos hne] at h
    obtain ⟨hinv, Δ, hfiles, hlen, hmem⟩ := extract_spec h
    refine ⟨hinv, Δ, hfiles, hlen, fun fb hfb => ?_⟩
    simp only [List.mem_singleton]
    exact (hmem fb hfb).symm
  · rw [if_neg hne] at h
    obtain ⟨rfl, rfl⟩ : e = y ∧ st = st' := by simpa using h
    have : e = [] := by simpa using hne
    exact ⟨id, [], by simp, by simp [this, countUri_nil], by simp⟩

theorem rewriteCampaign_spec :
    StepSpec rewriteCampaign (fun c => countUri c.image_url) (fun c => [c.image_url]) := by
  intro st c y st' h
  rw [rewriteCampaign] at h
  by_cases hne : c.image_url ≠ []
  · rw [if_pos hne] at h
    split at h
    next => exact absurd h (by simp)
    next u st₁ hx =>
    obtain ⟨rfl, rfl⟩ : ({c with image_url := u} : Campaign) = y ∧ st₁ = st' := by
      simpa using h
    obtain ⟨hinv, Δ, hfiles, hlen, hmem⟩ := extract_spec hx
    refine ⟨hinv, Δ, hfiles, by simpa [countUri] using hlen, fun fb hfb => ?_⟩
    simp only [List.mem_singleton]
    exact (hmem fb hfb).symm
  · rw [if_neg hne] at h
    obtain ⟨rfl, rfl⟩ : c = y ∧ st = st' := by simpa using h
    have : c.image_url = [] := by simpa using hne
    exact ⟨id, [], by simp, by simp [this, countUri_nil], by simp⟩

theorem rewriteFlowStep_spec : StepSpec rewriteFlowStep FlowStep.imgCount FlowStep.imageRefs := by
  intro st f y st' h
  rw [rewriteFlowStep] at h
  by_cases hne : f.icon_image_url ≠ []
  · rw [if_pos hne] at h
    split at h
    next => exact absurd h (by simp)
    next u st₁ hx =>
    obtain ⟨rfl, rfl⟩ : ({f with icon_image_url := u} : FlowStep) = y ∧ st₁ = st' := by
      simpa using h
    obtain ⟨hinv, Δ, hfiles, hlen, hmem⟩ := extract_spec hx
    refine ⟨hinv, Δ, hfiles, by simpa [FlowStep.imgCount, countUri] using hlen,
      fun fb hfb => ?_⟩
    simp only [FlowStep.imageRefs, List.mem_singleton]
    exact (hmem fb hfb).symm
  · rw [if_neg hne] at h
    obtain ⟨rfl, rfl⟩ : f = y ∧ st = st' := by simpa using h
    have : f.icon_image_url = [] := by simpa using hne
    exact ⟨id, [], by simp, by simp [FlowStep.imgCount, this, countUri_nil], by simp⟩

theorem rewriteShop_spec : StepSpec rewriteShop Shop.imgCount Shop.imageRefs := by
  intro st s y st' h
  rw [rewriteShop] at h
  split at h
  next => exact absurd h (by simp)
  next logo st₁ h1 =>
  split at h
  next => exact absurd h (by simp)
  next camp st₂ h2 =>
  split at h
  next => exact absurd h (by simp)
  next feats st₃ h3 =>
  split at h
  next => exact absurd h (by simp)
  next extras st₄ h4 =>
  obtain ⟨rfl, rfl⟩ : ({s with logo_url := logo, campaign := camp, features := feats, extra_images := extras} : Shop) = y ∧ st₄ = st' := by simpa using h
  obtain ⟨hi1, Δ1, hf1, hl1, hm1⟩ := extract_spec h1
  obtain ⟨hi2, Δ2, hf2, hl2, hm2⟩ := rewriteCampaign_spec st₁ s.campaign camp st₂ h2
  obtain ⟨hi3, Δ3, hf3, hl3, hm3⟩ := mapExtract_spec rewriteFeature_spec h3
  obtain ⟨hi4, Δ4, hf4, hl4, hm4⟩ := mapExtract_spec rewriteExtra_spec h4
  refine ⟨fun hi => hi4 (hi3 (hi2 (hi1 hi))), Δ1 ++ Δ2 ++ Δ3 ++ Δ4, ?_, ?_, ?_⟩
  · simp [hf4, hf3, hf2, hf1, List.append_assoc]
  · simp only [List.length_append, hl1, hl2, hl3, hl4, Shop.imgCount, countUri,
      Feature.imgCount]
  · intro fb hfb
    simp only [Shop.imageRefs, List.mem_cons, List.mem_append]
    rcases List.mem_append.1 hfb with hfb | hfb4
    rcases List.mem_append.1 hfb with hfb | hfb3
    rcases List.mem_append.1 hfb with hfb1 | hfb2
    · exact Or.inl (hm1 fb hfb1).symm
    · have h' := hm2 fb hfb2
      simp only [List.mem_singleton] at h'
      exact Or.inr (Or.inl h')
    · exact Or.inr (Or.inr (Or.inl (hm3 fb hfb3)))
    · obtain ⟨e, he, hpe⟩ := List.mem_flatMap.1 (hm4 fb hfb4)
      simp only [List.mem_singleton] at hpe
      subst hpe
      exact Or.inr (Or.inr (Or.inr he))

theorem rewriteSiteLogo_spec {st st' : ExSt} {site : Site} {out : Str}
    (h : rewriteSiteLogo st site = some (out, st')) :
    (ExInv st → ExInv st') ∧
    ∃ Δ : List (Str × Bytes), st'.image_files = st.image_files ++ Δ ∧
      Δ.length = countUri site.logo_url ∧
      ∀ fb ∈ Δ, out = ("images/").data ++ fb.1 := by
  rw [rewriteSiteLogo] at h
  by_cases hne : site.logo_url ≠ []
  · rw [if_pos hne] at h
    obtain ⟨hinv, Δ, hfiles, hlen, hmem⟩ := extract_spec h
    exact ⟨hinv, Δ, hfiles, by simpa [countUri] using hlen, hmem⟩
  · rw [if_neg hne] at h
    obtain ⟨rfl, rfl⟩ : site.logo_url = out ∧ st = st' := by simpa using h
    have hz : site.logo_url = [] := by simpa using hne
    exact ⟨id, [], by simp, by simp [hz, countUri_nil], by simp⟩

/-- The combined specification of the image-rewriting phase: the final closure
state satisfies the counter-chain invariant, records exactly one file per
matched field of the input document, and every recorded file's `images/` path
is stored in the rewritten document. -/
theorem exportRewrite_spec {config ec : Document} {st : ExSt}
    (h : exportRewrite config = some (ec, st)) :
    ExInv st ∧
    st.image_files.length = config.imgCount ∧
    ∀ fb ∈ st.image_files, (("images/").data ++ fb.1) ∈ ec.imageRefs := by
  rw [exportRewrite] at h
  split at h
  next => exact absurd h (by simp)
  next site_logo st₁ h1 =>
  split at h
  next => exact absurd h (by simp)
  next hero_bg st₂ h2 =>
  split at h
  next => exact absurd h (by simp)
  next comp_shops st₃ h3 =>
  split at h
  next => exact absurd h (by simp)
  next shops st₄ h4 =>
  split at h
  next => exact absurd h (by simp)
  next steps st₅ h5 =>
  obtain ⟨rfl, rfl⟩ : ({config with site := {config.site with logo_url := site_logo}, hero := {config.hero with bg_image_url := hero_bg}, comparison_top := {config.comparison_top with shops := comp_shops}, shops := shops, flow := {config.flow with steps := steps}} : Document) = ec ∧ st₅ = st := by
    simpa using h
  obtain ⟨hi1, Δ1, hf1, hl1, hm1⟩ := rewriteSiteLogo_spec h1
  obtain ⟨hi2, Δ2, hf2, hl2, hm2⟩ := extract_spec h2
  obtain ⟨hi3, Δ3, hf3, hl3, hm3⟩ := mapExtract_spec rewriteCompShop_spec h3
  obtain ⟨hi4, Δ4, hf4, hl4, hm4⟩ := mapExtract_spec rewriteShop_spec h4
  obtain ⟨hi5, Δ5, hf5, hl5, hm5⟩ := mapExtract_spec rewriteFlowStep_spec h5
  have hfiles : st₅.image_files = Δ1 ++ Δ2 ++ Δ3 ++ Δ4 ++ Δ5 := by
    simp [hf5, hf4, hf3, hf2, hf1, ExSt.init, List.append_assoc]
  refine ⟨hi5 (hi4 (hi3 (hi2 (hi1 ExInv.init)))), ?_, ?_⟩
  · rw [hfiles]
    simp only [List.length_append, hl1, hl2, hl3, hl4, hl5, Document.imgCount, countUri]
  · intro fb hfb
    rw [hfiles] at hfb
    simp only [Document.imageRefs, List.mem_cons, List.mem_append]
    rcases List.mem_append.1 hfb with hfb | hfb5
    rcases List.mem_append.1 hfb with hfb | hfb4
    rcases List.mem_append.1 hfb with hfb | hfb3
    rcases List.mem_append.1 hfb with hfb1 | hfb2
    · exact Or.inl (hm1 fb hfb1).symm
    · exact Or.inr (Or.inl (hm2 fb hfb2).symm)
    · exact Or.inr (Or.inr (Or.inl (Or.inl (hm3 fb hfb3))))
    · exact Or.inr (Or.inr (Or.inl (Or.inr (hm4 fb hfb4))))
    · exact Or.inr (Or.inr (Or.inr (hm5 fb hfb5)))

/-- **C1**: over one export pass, filenames assigned by image extraction are
pairwise distinct even across different semantic prefixes, because the sequence
number comes from the single counter shared by the whole pass: a document with
`N` matched embedded data-URI images yields `N` distinct filenames, each of the
form `<prefix>_<NNN>.<ext>` (`NNN` the `:03d`-padded counter), with strictly
increasing counter values (`ChainNames`). -/
theorem export_filenames_globally_unique {config ec : Document} {st : ExSt}
    (h : exportRewrite config = some (ec, st)) :
    st.image_files.length = config.imgCount ∧
    (st.image_files.map Prod.fst).Nodup ∧
    ChainNames 0 st.counter (st.image_files.map Prod.fst) ∧
    ∀ f ∈ st.image_files.map Prod.fst, ∃ pfx n ext, f = mkFilename pfx n ext ∧
      ext ∈ extList ∧ 0 < n ∧ n ≤ st.counter := by
  obtain ⟨hinv, hlen, -⟩ := exportRewrite_spec h
  refine ⟨hlen, hinv.nodup, hinv, fun f hf => ?_⟩
  obtain ⟨p, n, e, h1, h2, h3, h4⟩ := hinv.mem f hf
  exact ⟨p, n, e, h4, h3, h1, h2⟩

/-- A concrete document: a hero image and one shop logo embedded as data URIs,
a second shop with an external logo URL, shop ranks stored as 5 and 7. -/
def sampleShop1 : Shop :=
  { id := ("shop1").data, rank := 5, name := ("Shop A").data,
    logo_url := ("data:image/gif;base64,AAAA").data, catch_copy := [], sub_catch := [],
    link := ("#").data, info := [], features := [], reviews := [],
    campaign := ⟨[], [], []⟩, cta_text := [], cta_sub := [],
    visibility := ⟨true, true, true, true, true⟩, extra_images := [] }

def sampleShop2 : Shop :=
  { sampleShop1 with id := ("shop2").data, rank := 7, name := ("Shop B").data, logo_url := ("https://example.com/logo.png").data }

def sampleDoc : Document :=
  { site := ⟨("LP").data, [], [], [], []⟩,
    colors := ⟨[], [], [], [], []⟩,
    hero := ⟨("data:image/png;base64,AAAA").data⟩,
    comparison_top := ⟨[], []⟩,
    recommend_section := ⟨[]⟩,
    detail_table := ⟨[], [], []⟩,
    shops := [sampleShop1, sampleShop2],
    flow := ⟨[], []⟩,
    summary_table := ⟨[], []⟩,
    footer := ⟨[], [], []⟩,
    sections_visibility := [] }

theorem export_filenames_globally_unique_witness :
    ∃ ec st, exportRewrite sampleDoc = some (ec, st) ∧
      st.image_files.length = sampleDoc.imgCount ∧
      (st.image_files.map Prod.fst).Nodup := by
  rcases hh : exportRewrite sampleDoc with - | ⟨ec, st⟩
  · exact absurd hh (by decide)
  · obtain ⟨hlen, hnodup, -, -⟩ := export_filenames_globally_unique hh
    exact ⟨ec, st, rfl, hlen, hnodup⟩

theorem index_ne_images (x : Str) : ("index.html").data ≠ ("images/").data ++ x := by
  intro h
  rw [show ("index.html").data =
      'i' :: 'n' :: ('d' :: 'e' :: 'x' :: '.' :: 'h' :: 't' :: 'm' :: 'l' :: []) from rfl,
    show ("images/").data = 'i' :: 'm' :: ('a' :: 'g' :: 'e' :: 's' :: '/' :: []) from rfl] at h
  simp at h

/-- **C7**: the exported archive is exactly one root `index.html` entry plus one
`images/<filename>` entry per extracted file, the entry paths are pairwise
distinct, and each `images/<filename>` path is exactly the value stored in the
rewritten document's image fields, so the HTML's references and the archive
layout agree. -/
theorem export_zip_layout (render_html : Document → Bool → Str) {config : Document}
    {zip : List (Str × ZipData)} (h : create_export_zip render_html config = some zip) :
    ∃ ec st, exportRewrite config = some (ec, st) ∧
      zip = (("index.html").data, ZipData.html (render_html ec true)) ::
        st.image_files.map (fun fb => (("images/").data ++ fb.1, ZipData.bytes fb.2)) ∧
      (zip.map Prod.fst).Nodup ∧
      (zip.map Prod.fst).count (("index.html").data) = 1 ∧
      ∀ fb ∈ st.image_files, (("images/").data ++ fb.1) ∈ ec.imageRefs := by
  rw [create_export_zip] at h
  split at h
  next => exact absurd h (by simp)
  next ec st heq =>
  obtain rfl : (("index.html").data, ZipData.html (render_html ec true)) ::
      st.image_files.map (fun fb => (("images/").data ++ fb.1, ZipData.bytes fb.2)) = zip := by
    simpa using h
  obtain ⟨hinv, -, hrefs⟩ := exportRewrite_spec heq
  have hnames : (st.image_files.map (fun fb => (("images/").data ++ fb.1,
      ZipData.bytes fb.2))).map Prod.fst =
      (st.image_files.map Prod.fst).map (fun f => ("images/").data ++ f) := by
    simp [List.map_map, Function.comp]
  have htailnodup : ((st.image_files.map (fun fb => (("images/").data ++ fb.1,
      ZipData.bytes fb.2))).map Prod.fst).Nodup := by
    rw [hnames]
    exact hinv.nodup.map (fun a b hab => List.append_cancel_left hab)
  have hnotmem : ("index.html").data ∉ (st.image_files.map (fun fb =>
      (("images/").data ++ fb.1, ZipData.bytes fb.2))).map Prod.fst := by
    rw [hnames]
    intro hmem
    obtain ⟨f, -, hf⟩ := List.mem_map.1 hmem
    exact index_ne_images f hf.symm
  refine ⟨ec, st, heq, rfl, ?_, ?_, hrefs⟩
  · simpa using List.nodup_cons.2 ⟨hnotmem, htailnodup⟩
  · simp only [List.map_cons, List.count_cons_self]
    rw [List.count_eq_zero_of_not_mem hnotmem]

theorem export_zip_layout_witness :
    ∃ zip, create_export_zip (fun _ _ => []) sampleDoc = some zip ∧
      (zip.map Prod.fst).Nodup ∧ (zip.map Prod.fst).count (("index.html").data) = 1 := by
  rcases hh : create_export_zip (fun _ _ => []) sampleDoc with - | zip
  · exact absurd hh (by decide)
  · obtain ⟨ec, st, -, -, hnodup, hcount, -⟩ := export_zip_layout (fun _ _ => []) hh
    exact ⟨zip, rfl, hnodup, hcount⟩

/-- **C3** (evaluation at the failing input): the claim says extraction of a
`image/svg+xml` data URI produces a `.svg` file, and `ext_map` indeed carries
the entry `image/svg+xml → .svg`; but the regex `data:(image/\w+);base64,`
cannot match `image/svg+xml` because `'+'` is not a word character, so the
value passes through unchanged and no file is recorded — the SVG table entry
is unreachable. -/
theorem svg_data_uri_not_extracted :
    extract_base64_image ExSt.init ("data:image/svg+xml;base64,PHN2ZyAvPg==").data
        (("img").data) =
      some (("data:image/svg+xml;base64,PHN2ZyAvPg==").data, ExSt.init) ∧
    extOf ("image/svg+xml").data = (".svg").data ∧
    matchDataUri ("data:image/svg+xml;base64,PHN2ZyAvPg==").data = none := by
  refine ⟨by decide, by decide, by decide⟩

/-- **C5**: a value that does not match the `data:<mime>;base64,<payload>`
pattern — any plain external URL, the empty string, or a `data:`-led string the
regex rejects — is returned unchanged and no image file is recorded. -/
theorem extract_passthrough_nonmatching {st : ExSt} {uri pfx : Str}
    (h : matchesDataUri uri = false) :
    extract_base64_image st uri pfx = some (uri, st) := by
  rw [extract_base64_image]
  by_cases h1 : uri = []
  · rw [if_pos h1]
  rw [if_neg h1]
  by_cases h2 : (("data:").data).isPrefixOf uri
  · rw [if_neg (by simpa using h2)]
    cases hm : matchDataUri uri with
    | none => rfl
    | some mp =>
      exfalso
      rw [matchesDataUri, hm] at h
      simp [h1, h2] at h
  · rw [if_pos (by simpa using h2)]

theorem extract_passthrough_nonmatching_witness :
    extract_base64_image ExSt.init ("https://example.com/a.png").data (("img").data) =
      some (("https://example.com/a.png").data, ExSt.init) :=
  extract_passthrough_nonmatching (by decide)

/-- The regex matches a `data:image/png;base64,<payload>` URI produced by
`image_to_base64`, capturing the MIME type and the base64 payload.  (Everything
up to the payload is concrete, so this is by computation.) -/
theorem matchDataUri_png (B : Bytes) :
    matchDataUri (image_to_base64 B ("image/png").data) =
      some (("image/png").data, b64encode B) := rfl

/-- **C6**: for every PNG byte payload `B`, converting it to a data URI with
MIME type `image/png` (`image_to_base64`) and then running export-time
extraction on that URI recovers bytes equal to `B` and assigns a filename
ending in `.png`. -/
theorem png_roundtrip {st : ExSt} (B : Bytes) (hB : BytesOk B) (pfx : Str) :
    extract_base64_image st (image_to_base64 B ("image/png").data) pfx =
      some (("images/").data ++ mkFilename pfx (st.counter + 1) ((".png").data),
        ⟨st.counter + 1,
          st.image_files ++ [(mkFilename pfx (st.counter + 1) ((".png").data), B)]⟩) ∧
    mkFilename pfx (st.counter + 1) ((".png").data) =
      (pfx ++ '_' :: pad3 (st.counter + 1)) ++ (".png").data := by
  constructor
  · have hred : extract_base64_image st (image_to_base64 B ("image/png").data) pfx =
        match b64decode (b64encode B) with
        | none => none
        | some raw_bytes =>
            some (("images/").data ++ mkFilename pfx (st.counter + 1) ((".png").data),
              ⟨st.counter + 1,
                st.image_files ++ [(mkFilename pfx (st.counter + 1) ((".png").data),
                  raw_bytes)]⟩) := rfl
    rw [hred, b64decode_b64encode B hB]
  · simp [mkFilename, List.append_assoc]

theorem png_roundtrip_witness :
    BytesOk [137, 80, 78, 71] ∧
    extract_base64_image ExSt.init (image_to_base64 [137, 80, 78, 71] ("image/png").data)
        (("hero").data) =
      some (("images/").data ++ mkFilename ("hero").data 1 ((".png").data),
        ⟨1, [(mkFilename ("hero").data 1 ((".png").data), [137, 80, 78, 71])]⟩) :=
  ⟨by decide, (png_roundtrip [137, 80, 78, 71] (by decide) (("hero").data)).1⟩

/-! ## Live preview: rank derivation (`main`, preview column)

`render_config = copy.deepcopy(config)` followed by
`for i, shop in enumerate(render_config.get("shops", [])): shop["rank"] = i + 1`
and `render_html(render_config)`.  The export path (`create_export_zip`)
contains no such loop: it renders the stored rank values unchanged. -/

/-- The enumerate loop: overwrite each shop's rank with its 1-based position. -/
def applyRanks : Nat → List Shop → List Shop
  | _, [] => []
  | i, s :: ss => {s with rank := (i : Int) + 1} :: applyRanks (i + 1) ss

/-- The document the live preview renders (ranks already overwritten). -/
def preview_config (config : Document) : Document :=
  {config with shops := applyRanks 0 config.shops}

/-- The live-preview render call: `render_html(render_config)` with the default
`for_export=False`. -/
def preview_render (render_html : Document → Bool → Str) (config : Document) : Str :=
  render_html (preview_config config) false

theorem applyRanks_length : ∀ (k : Nat) (ss : List Shop),
    (applyRanks k ss).length = ss.length
  | _, [] => rfl
  | k, _ :: ss => by simp [applyRanks, applyRanks_length (k + 1) ss]

theorem applyRanks_get? : ∀ (ss : List Shop) (k i : Nat),
    (applyRanks k ss)[i]?.map Shop.rank =
      if i < ss.length then some ((k : Int) + i + 1) else none := by
  intro ss
  induction ss with
  | nil => intro k i; simp [applyRanks]
  | cons s ss ih =>
    intro k i
    cases i with
    | zero => simp [applyRanks]
    | succ j =>
      have := ih (k + 1) j
      simp only [applyRanks, List.getElem?_cons_succ, List.length_cons, this]
      split_ifs with h1 h2 h2
      · congr 1
        push_cast
        ring
      · omega
      · omega
      · rfl

/-- **C4** (amended): when the live preview materializes the rendering order,
each shop card's rank is overwritten with its 1-based position — regardless of
the prior stored rank values.  (The export path does not re-derive ranks; see
the counterexample.) -/
theorem preview_rank_derivation (config : Document) (i : Nat)
    (h : i < config.shops.length) :
    ((preview_config config).shops)[i]?.map Shop.rank = some ((i : Int) + 1) := by
  rw [preview_config]
  simp only
  rw [applyRanks_get?, if_pos h]
  norm_num

theorem preview_rank_derivation_witness :
    1 < sampleDoc.shops.length ∧
    sampleDoc.shops.map Shop.rank = [5, 7] ∧
    ((preview_config sampleDoc).shops)[0]?.map Shop.rank = some 1 ∧
    ((preview_config sampleDoc).shops)[1]?.map Shop.rank = some 2 :=
  ⟨by decide, by decide, preview_rank_derivation sampleDoc 0 (by decide),
    preview_rank_derivation sampleDoc 1 (by decide)⟩

/-- **C4** (counterexample to the claim as stated): the export pass renders
the document with its stored rank values; for a document storing ranks 5 and 7
the config handed to `render_html(..., for_export=True)` still carries
`[5, 7]`, not the position-derived `[1, 2]`. -/
theorem export_rank_not_rederived :
    sampleDoc.shops.map Shop.rank = [5, 7] ∧
    (exportRewrite sampleDoc).map (fun p => p.1.shops.map Shop.rank) = some [5, 7] ∧
    ([5, 7] : List Int) ≠ [1, 2] := by decide

/-! ## The mutable session: which object a variable aliases

Streamlit's session state holds the one mutable document; `create_export_zip`
and the preview path each call `copy.deepcopy(config)` and mutate only the
copy.  We model the object store as a heap of document cells; `deepcopy` is a
structural rebuild allocated in a fresh cell, and the in-place mutations hit
that fresh cell only, which is exactly what the frame claims are about. -/

def Feature.deepcopy (f : Feature) : Feature := ⟨f.title, f.text, f.image_url⟩

def Campaign.deepcopy (c : Campaign) : Campaign := ⟨c.text, c.sub_text, c.image_url⟩

def Visibility.deepcopy (v : Visibility) : Visibility :=
  ⟨v.info, v.features, v.reviews, v.campaign, v.cta⟩

def Metric.deepcopy (m : Metric) : Metric := ⟨m.label, m.value, m.rating⟩

def CompShop.deepcopy (s : CompShop) : CompShop :=
  ⟨s.name, s.logo_url, s.link, s.cta_text, s.metrics.map Metric.deepcopy⟩

def Shop.deepcopy (s : Shop) : Shop :=
  ⟨s.id, s.rank, s.name, s.logo_url, s.catch_copy, s.sub_catch, s.link,
    s.info.map (fun kv => (kv.1, kv.2)), s.features.map Feature.deepcopy,
    s.reviews.map (fun r => r), s.campaign.deepcopy, s.cta_text, s.cta_sub,
    s.visibility.deepcopy, s.extra_images.map (fun x => x)⟩

def FlowStep.deepcopy (f : FlowStep) : FlowStep :=
  ⟨f.title, f.text, f.icon_type, f.icon, f.icon_image_url⟩

def DetailRow.deepcopy (r : DetailRow) : DetailRow :=
  ⟨r.label, r.cells.map (fun c => c)⟩

def FooterLink.deepcopy (l : FooterLink) : FooterLink := ⟨l.name, l.link⟩

def SummaryShop.deepcopy (s : SummaryShop) : SummaryShop :=
  ⟨s.name, s.features, s.scope, s.speed, s.cta_text, s.link⟩

/-- `copy.deepcopy` on the whole document: rebuild every substructure. -/
def Document.deepcopy (d : Document) : Document :=
  { site := ⟨d.site.title, d.site.subtitle, d.site.logo_text, d.site.logo_url, d.site.ad_label⟩,
    colors := ⟨d.colors.main, d.colors.sub, d.colors.text, d.colors.bg, d.colors.accent⟩,
    hero := ⟨d.hero.bg_image_url⟩,
    comparison_top := ⟨d.comparison_top.heading, d.comparison_top.shops.map CompShop.deepcopy⟩,
    recommend_section := ⟨d.recommend_section.heading⟩,
    detail_table := ⟨d.detail_table.columns.map (fun c => c),
      d.detail_table.rows.map DetailRow.deepcopy, d.detail_table.footer_note⟩,
    shops := d.shops.map Shop.deepcopy,
    flow := ⟨d.flow.heading, d.flow.steps.map FlowStep.deepcopy⟩,
    summary_table := ⟨d.summary_table.heading, d.summary_table.shops.map SummaryShop.deepcopy⟩,
    footer := ⟨d.footer.copyright, d.footer.shop_links.map FooterLink.deepcopy,
      d.footer.column_links.map FooterLink.deepcopy⟩,
    sections_visibility := d.sections_visibility.map (fun kv => (kv.1, kv.2)) }

theorem map_id_of {α : Type} (f : α → α) (hf : ∀ x, f x = x) (l : List α) :
    l.map f = l := by
  induction l with
  | nil => rfl
  | cons x xs ih => simp [hf, ih]

theorem feature_deepcopy_eq (f : Feature) : f.deepcopy = f := rfl

theorem campaign_deepcopy_eq (c : Campaign) : c.deepcopy = c := rfl

theorem visibility_deepcopy_eq (v : Visibility) : v.deepcopy = v := rfl

theorem metric_deepcopy_eq (m : Metric) : m.deepcopy = m := rfl

theorem compshop_deepcopy_eq (s : CompShop) : s.deepcopy = s := by
  cases s
  simp [CompShop.deepcopy, map_id_of Metric.deepcopy metric_deepcopy_eq]

theorem shop_deepcopy_eq (s : Shop) : s.deepcopy = s := by
  cases s
  simp [Shop.deepcopy, map_id_of Feature.deepcopy feature_deepcopy_eq,
    campaign_deepcopy_eq, visibility_deepcopy_eq]

theorem flowstep_deepcopy_eq (f : FlowStep) : f.deepcopy = f := rfl

theorem detailrow_deepcopy_eq (r : DetailRow) : r.deepcopy = r := by
  cases r
  simp [DetailRow.deepcopy]

theorem footerlink_deepcopy_eq (l : FooterLink) : l.deepcopy = l := rfl

theorem Summaryshop_deepcopy_eq (s : SummaryShop) : s.deepcopy = s := rfl

/-- A deep copy is structurally equal to the original (its point: it lives at a
fresh heap cell). -/
theorem document_deepcopy_eq (d : Document) : d.deepcopy = d := by
  simp [Document.deepcopy, map_id_of CompShop.deepcopy compshop_deepcopy_eq,
    map_id_of Shop.deepcopy shop_deepcopy_eq,
    map_id_of FlowStep.deepcopy flowstep_deepcopy_eq,
    map_id_of DetailRow.deepcopy detailrow_deepcopy_eq,
    map_id_of FooterLink.deepcopy footerlink_deepcopy_eq,
    map_id_of SummaryShop.deepcopy Summaryshop_deepcopy_eq]

/-- A store of document cells: Python objects a session variable can alias. -/
structure Heap where
  next : Nat
  cells : List (Nat × Document)
  deriving DecidableEq, Repr

/-- Dereference a cell. -/
def Heap.lookup (σ : Heap) (r : Nat) : Option Document :=
  (σ.cells.find? (fun c => c.1 == r)).map Prod.snd

/-- Overwrite the object a reference points to (in-place mutation). -/
def Heap.update (σ : Heap) (r : Nat) (d : Document) : Heap :=
  ⟨σ.next, σ.cells.map (fun c => if c.1 = r then (r, d) else c)⟩

/-- Allocate a fresh cell (what `copy.deepcopy`'s result is bound to). -/
def Heap.alloc (σ : Heap) (d : Document) : Nat × Heap :=
  (σ.next, ⟨σ.next + 1, (σ.next, d) :: σ.cells⟩)

/-- Every live reference is below the allocation counter. -/
def Heap.WF (σ : Heap) : Prop := ∀ c ∈ σ.cells, c.1 < σ.next

theorem Heap.lookup_lt_next {σ : Heap} {r : Nat} {d : Document}
    (hWF : σ.WF) (h : σ.lookup r = some d) : r < σ.next := by
  unfold Heap.lookup at h
  cases hf : σ.cells.find? (fun c => c.1 == r) with
  | none => rw [hf] at h; cases h
  | some c =>
    have hmem := List.mem_of_find?_eq_some hf
    have hkey := List.find?_some hf
    have : c.1 = r := by simpa using hkey
    exact this ▸ hWF c hmem

theorem Heap.lookup_update_ne (σ : Heap) (r r' : Nat) (d : Document) (h : r' ≠ r) :
    (σ.update r d).lookup r' = σ.lookup r' := by
  unfold Heap.lookup Heap.update
  simp only
  congr 1
  induction σ.cells with
  | nil => rfl
  | cons c cs ih =>
    simp only [List.map_cons, List.find?]
    by_cases hc : c.1 = r
    · rw [if_pos hc]
      have h1 : (r == r') = false := by simpa using (Ne.symm h)
      have h2 : (c.1 == r') = false := by simp [hc]; exact (Ne.symm h)
      simp only [h1, h2, ih]
    · rw [if_neg hc]
      cases hcr : (c.1 == r') <;> simp [hcr, ih]

theorem Heap.lookup_alloc_ne (σ : Heap) (d : Document) (r' : Nat) (h : r' ≠ σ.next) :
    ((σ.alloc d).2).lookup r' = σ.lookup r' := by
  unfold Heap.lookup Heap.alloc
  simp only [List.find?]
  have : (σ.next == r') = false := by simpa using (Ne.symm h)
  rw [this]

theorem Heap.lookup_alloc_self (σ : Heap) (d : Document) :
    ((σ.alloc d).2).lookup (σ.alloc d).1 = some d := by
  unfold Heap.lookup Heap.alloc
  simp [List.find?]

/-- The export toolbar action on the live session: look up the session
document, deep-copy it into a fresh object, run the image-rewriting mutations
on that object, and build the ZIP.  Only the copy's cell is ever written. -/
def create_export_zip_session (render_html : Document → Bool → Str)
    (σ : Heap) (cfgRef : Nat) : Option (Heap × List (Str × ZipData)) :=
  match σ.lookup cfgRef with
  | none => none
  | some config =>
    let a := σ.alloc config.deepcopy
    match a.2.lookup a.1 with
    | none => none
    | some export_config =>
      match exportRewrite export_config with
      | none => none
      | some (ec, st) =>
        some (a.2.update a.1 ec,
          (("index.html").data, ZipData.html (render_html ec true)) ::
            st.image_files.map (fun fb => (("images/").data ++ fb.1, ZipData.bytes fb.2)))

/-- The live-preview render on the session: deep-copy the document into a
fresh object, overwrite the copy's shop ranks in place, render the copy. -/
def preview_render_session (render_html : Document → Bool → Str)
    (σ : Heap) (cfgRef : Nat) : Option (Heap × Str) :=
  match σ.lookup cfgRef with
  | none => none
  | some config =>
    let a := σ.alloc config.deepcopy
    match a.2.lookup a.1 with
    | none => none
    | some render_config =>
      let rc := {render_config with shops := applyRanks 0 render_config.shops}
      some (a.2.update a.1 rc, render_html rc false)

/-- **C2**: exporting never mutates the in-session document — all path
rewriting happens on the freshly allocated deep copy, so after
`create_export_zip` every pre-existing cell (the session document's included)
holds exactly the document it held before, and the only new artifact is the
returned ZIP buffer. -/
theorem export_session_frame (render_html : Document → Bool → Str)
    {σ σ' : Heap} {cfgRef : Nat} {zip : List (Str × ZipData)}
    (hWF : Heap.WF σ)
    (h : create_export_zip_session render_html σ cfgRef = some (σ', zip)) :
    σ'.lookup cfgRef = σ.lookup cfgRef ∧
    ∀ r, r < σ.next → σ'.lookup r = σ.lookup r := by
  rw [create_export_zip_session] at h
  split at h
  next => exact absurd h (by simp)
  next config hcfg =>
  simp only [Heap.lookup_alloc_self] at h
  split at h
  next => exact absurd h (by simp)
  next ec st hrw =>
  obtain ⟨rfl, -⟩ : (σ.alloc config.deepcopy).2.update (σ.alloc config.deepcopy).1 ec = σ' ∧ _ = zip := by
    simpa using h
  have hframe : ∀ r, r < σ.next →
      ((σ.alloc config.deepcopy).2.update (σ.alloc config.deepcopy).1 ec).lookup r =
        σ.lookup r := by
    intro r hr
    have hne : r ≠ σ.next := by omega
    rw [Heap.lookup_update_ne _ _ _ _ (show r ≠ (σ.alloc config.deepcopy).1 from hne),
      Heap.lookup_alloc_ne _ _ _ hne]
  exact ⟨hframe cfgRef (Heap.lookup_lt_next hWF hcfg), hframe⟩

/-- **C10**: the live preview never mutates the in-session document — the rank
overwrite lands only on the freshly allocated deep copy, so after a preview
render every pre-existing cell (the session document's included) holds exactly
the document it held before. -/
theorem preview_session_frame (render_html : Document → Bool → Str)
    {σ σ' : Heap} {cfgRef : Nat} {out : Str}
    (hWF : Heap.WF σ)
    (h : preview_render_session render_html σ cfgRef = some (σ', out)) :
    σ'.lookup cfgRef = σ.lookup cfgRef ∧
    ∀ r, r < σ.next → σ'.lookup r = σ.lookup r := by
  rw [preview_render_session] at h
  split at h
  next => exact absurd h (by simp)
  next config hcfg =>
  simp only [Heap.lookup_alloc_self] at h
  obtain ⟨rfl, -⟩ : (σ.alloc config.deepcopy).2.update (σ.alloc config.deepcopy).1
      {config.deepcopy with shops := applyRanks 0 config.deepcopy.shops} = σ' ∧ _ = out := by
    simpa using h
  have hframe : ∀ r, r < σ.next →
      ((σ.alloc config.deepcopy).2.update (σ.alloc config.deepcopy).1
        {config.deepcopy with shops := applyRanks 0 config.deepcopy.shops}).lookup r =
        σ.lookup r := by
    intro r hr
    have hne : r ≠ σ.next := by omega
    rw [Heap.lookup_update_ne _ _ _ _ (show r ≠ (σ.alloc config.deepcopy).1 from hne),
      Heap.lookup_alloc_ne _ _ _ hne]
  exact ⟨hframe cfgRef (Heap.lookup_lt_next hWF hcfg), hframe⟩

/-- A one-document session heap. -/
def sampleHeap : Heap := ⟨1, [(0, sampleDoc)]⟩

theorem export_session_frame_witness :
    Heap.WF sampleHeap ∧
    ∃ σ' zip, create_export_zip_session (fun _ _ => []) sampleHeap 0 = some (σ', zip) ∧
      σ'.lookup 0 = sampleHeap.lookup 0 := by
  refine ⟨?_, ?_⟩
  · intro c hc
    simp only [sampleHeap, List.mem_singleton] at hc
    subst hc
    decide
  · rcases hh : create_export_zip_session (fun _ _ => []) sampleHeap 0 with - | ⟨σ', zip⟩
    · exact absurd hh (by decide)
    · obtain ⟨hcfg, -⟩ := export_session_frame (fun _ _ => [])
        (fun c hc => by simp only [sampleHeap, List.mem_singleton] at hc; subst hc; decide) hh
      exact ⟨σ', zip, rfl, hcfg⟩

theorem preview_session_frame_witness :
    Heap.WF sampleHeap ∧
    ∃ σ' out, preview_render_session (fun _ _ => []) sampleHeap 0 = some (σ', out) ∧
      σ'.lookup 0 = sampleHeap.lookup 0 := by
  refine ⟨?_, ?_⟩
  · intro c hc
    simp only [sampleHeap, List.mem_singleton] at hc
    subst hc
    decide
  · rcases hh : preview_render_session (fun _ _ => []) sampleHeap 0 with - | ⟨σ', out⟩
    · exact absurd hh (by decide)
    · obtain ⟨hcfg, -⟩ := preview_session_frame (fun _ _ => [])
        (fun c hc => by simp only [sampleHeap, List.mem_singleton] at hc; subst hc; decide) hh
      exact ⟨σ', out, rfl, hcfg⟩

/-! ## JSON: `json.dumps(..., ensure_ascii=False, indent=2)` and `json.loads`

The save button serializes the session document with
`json.dumps(config, ensure_ascii=False, indent=2)`; the load button parses an
upload with `json.loads`.  JSON values are modelled by `JVal` (numbers as
integers — the configuration documents hold no floats), the serializer mirrors
the `indent=2` layout exactly, and the parser is a recursive-descent reader
with a fuel bound (`json.loads` is an external library routine; the model
parses the same grammar restricted to the constructs the serializer emits:
integer numbers, and the string escapes `\" \\ \/ \n \t \r` — control
characters other than newline/tab/carriage-return are excluded by `JValid`
below, mirroring "valid document"). -/

inductive JVal where
  | null : JVal
  | bool : Bool → JVal
  | num : Int → JVal
  | str : Str → JVal
  | arr : List JVal → JVal
  | obj : List (Str × JVal) → JVal

/-- `'\x7b'` (written via its code point). -/
def lbrace : Char := Char.ofNat 123

/-- `'\x7d'`. -/
def rbrace : Char := Char.ofNat 125

/-- `json.dumps` string escaping with `ensure_ascii=False`: escape the quote,
the backslash and the control characters `\n`, `\t`, `\r`; pass everything
else through raw. -/
def escChar (c : Char) : Str :=
  if c = '"' then ['\\', '"']
  else if c = '\\' then ['\\', '\\']
  else if c = '\n' then ['\\', 'n']
  else if c = '\t' then ['\\', 't']
  else if c = '\r' then ['\\', 'r']
  else [c]

def escape (s : Str) : Str := s.flatMap escChar

/-- `indent=2`: two spaces per nesting level. -/
def ind (lvl : Nat) : Str := List.replicate (2 * lvl) ' '

/-- Python `str(n)` on an integer. -/
def intChars (n : Int) : Str :=
  if n < 0 then '-' :: natChars n.natAbs else natChars n.natAbs

mutual
/-- `json.dumps(v, ensure_ascii=False, indent=2)` at nesting level `lvl`. -/
def dumps : JVal → Nat → Str
  | .null, _ => ("null").data
  | .bool b, _ => if b then ("true").data else ("false").data
  | .num n, _ => intChars n
  | .str s, _ => '"' :: (escape s ++ ['"'])
  | .arr [], _ => ("[]").data
  | .arr (v :: tl), lvl =>
      '[' :: '\n' :: (ind (lvl + 1) ++ dumps v (lvl + 1) ++ dumpsElems tl (lvl + 1) ++
        ('\n' :: (ind lvl ++ [']'])))
  | .obj [], _ => [lbrace, rbrace]
  | .obj (m :: tl), lvl =>
      lbrace :: '\n' :: (ind (lvl + 1) ++
        ('"' :: (escape m.1 ++ ('"' :: ':' :: ' ' :: dumps m.2 (lvl + 1)))) ++
        dumpsMembers tl (lvl + 1) ++ ('\n' :: (ind lvl ++ [rbrace])))

/-- The `",\n<indent><element>"` tail of a non-empty array. -/
def dumpsElems : List JVal → Nat → Str
  | [], _ => []
  | v :: tl, lvl => ',' :: '\n' :: (ind lvl ++ dumps v lvl ++ dumpsElems tl lvl)

/-- The `",\n<indent>\"<key>\": <value>"` tail of a non-empty object. -/
def dumpsMembers : List (Str × JVal) → Nat → Str
  | [], _ => []
  | m :: tl, lvl =>
      ',' :: '\n' :: (ind lvl ++
        ('"' :: (escape m.1 ++ ('"' :: ':' :: ' ' :: dumps m.2 lvl))) ++
        dumpsMembers tl lvl)
end

/-- `json.dumps(config, ensure_ascii=False, indent=2)`. -/
def jsonDumps (v : JVal) : Str := dumps v 0

/-- JSON insignificant whitespace. -/
def wsChar (c : Char) : Bool := c = ' ' || c = '\t' || c = '\n' || c = '\r'

def skipWs (s : Str) : Str := s.dropWhile wsChar

/-- Parse a string body after the opening quote, un-escaping as it goes. -/
def parseStringBody : Str → Option (Str × Str)
  | [] => none
  | c :: cs =>
    if c = '"' then some ([], cs)
    else if c = '\\' then
      match cs with
      | [] => none
      | e :: cs' =>
        match (if e = '"' then some '"'
               else if e = '\\' then some '\\'
               else if e = '/' then some '/'
               else if e = 'n' then some '\n'
               else if e = 't' then some '\t'
               else if e = 'r' then some '\r'
               else none : Option Char) with
        | none => none
        | some d =>
          match parseStringBody cs' with
          | none => none
          | some (out, rest) => some (d :: out, rest)
    else
      match parseStringBody cs with
      | none => none
      | some (out, rest) => some (c :: out, rest)

/-- An ASCII decimal digit. -/
def isDigitC (c : Char) : Bool := 48 ≤ c.toNat && c.toNat ≤ 57

/-- Parse a run of decimal digits. -/
def parseNat (s : Str) : Option (Nat × Str) :=
  let ds := s.takeWhile isDigitC
  if ds = [] then none else some (charsToNat ds, s.dropWhile isDigitC)

mutual
/-- Parse one JSON value (after skipping whitespace). -/
def parseValueF : Nat → Str → Option (JVal × Str)
  | 0, _ => none
  | fuel + 1, s =>
    match skipWs s with
    | [] => none
    | c :: cs =>
      if c = '"' then (parseStringBody cs).map (fun p => (.str p.1, p.2))
      else if c = lbrace then
        match skipWs cs with
        | [] => none
        | c2 :: t' =>
          if c2 = rbrace then some (.obj [], t')
          else
            match parseMembersF fuel (c2 :: t') with
            | some (ms, rest) => some (.obj ms, rest)
            | none => none
      else if c = '[' then
        match skipWs cs with
        | [] => none
        | c2 :: t' =>
          if c2 = ']' then some (.arr [], t')
          else
            match parseElemsF fuel (c2 :: t') with
            | some (vs, rest) => some (.arr vs, rest)
            | none => none
      else if c = 't' then (stripPre ("rue").data cs).map (fun r => (.bool true, r))
      else if c = 'f' then (stripPre ("alse").data cs).map (fun r => (.bool false, r))
      else if c = 'n' then (stripPre ("ull").data cs).map (fun r => (.null, r))
      else if c = '-' then
        match parseNat cs with
        | some (n, rest) => some (.num (-(n : Int)), rest)
        | none => none
      else
        match parseNat (c :: cs) with
        | some (n, rest) => some (.num (n : Int), rest)
        | none => none

/-- Parse the members of a non-empty object, positioned at the opening quote
of a key. -/
def parseMembersF : Nat → Str → Option (List (Str × JVal) × Str)
  | 0, _ => none
  | fuel + 1, s =>
    match s with
    | [] => none
    | c :: cs =>
      if c = '"' then
        match parseStringBody cs with
        | none => none
        | some (k, r1) =>
          match skipWs r1 with
          | [] => none
          | c1 :: r3 =>
            if c1 = ':' then
              match parseValueF fuel r3 with
              | none => none
              | some (v, r4) =>
                match skipWs r4 with
                | [] => none
                | c2 :: r6 =>
                  if c2 = ',' then
                    match parseMembersF fuel (skipWs r6) with
                    | some (ms, rest) => some ((k, v) :: ms, rest)
                    | none => none
                  else if c2 = rbrace then some ([(k, v)], r6)
                  else none
            else none
      else none

/-- Parse the elements of a non-empty array, positioned at the first element. -/
def parseElemsF : Nat → Str → Option (List JVal × Str)
  | 0, _ => none
  | fuel + 1, s =>
    match parseValueF fuel s with
    | none => none
    | some (v, r4) =>
      match skipWs r4 with
      | [] => none
      | c2 :: r6 =>
        if c2 = ',' then
          match parseElemsF fuel (skipWs r6) with
          | some (vs, rest) => some (v :: vs, rest)
          | none => none
        else if c2 = ']' then some ([v], r6)
        else none
end

/-- `json.loads`: parse one value and require only whitespace after it. -/
def jsonParse (s : Str) : Option JVal :=
  match parseValueF (s.length + 1) s with
  | some (v, rest) => if skipWs rest = [] then some v else none
  | none => none

mutual
/-- Parser-call budget of a value: one per value plus one per list element. -/
def jnodes : JVal → Nat
  | .null => 1
  | .bool _ => 1
  | .num _ => 1
  | .str _ => 1
  | .arr vs => 1 + jnodesL vs
  | .obj ms => 1 + jnodesM ms

def jnodesL : List JVal → Nat
  | [] => 0
  | v :: tl => 1 + jnodes v + jnodesL tl

def jnodesM : List (Str × JVal) → Nat
  | [] => 0
  | m :: tl => 1 + jnodes m.2 + jnodesM tl
end

theorem jnodes_pos : ∀ v : JVal, 1 ≤ jnodes v
  | .null => le_refl 1
  | .bool _ => le_refl 1
  | .num _ => le_refl 1
  | .str _ => le_refl 1
  | .arr _ => by rw [jnodes]; omega
  | .obj _ => by rw [jnodes]; omega

/-- Characters our serializer/parser pair round-trips: everything except the
control characters Python would render as `\b`, `\f` or `\uXXXX`. -/
def CharOk (c : Char) : Prop := 32 ≤ c.toNat ∨ c = '\n' ∨ c = '\t' ∨ c = '\r'

instance : DecidablePred CharOk := fun c => by unfold CharOk; infer_instance

def StrOk (s : Str) : Prop := ∀ c ∈ s, CharOk c

instance : DecidablePred StrOk := fun s => by unfold StrOk; infer_instance

/-- A valid document (C9's "valid `D`"): object keys are pairwise distinct at
every level (Python dicts cannot hold duplicates) and strings avoid the rare
control characters outside this model's escape table. -/
inductive JValid : JVal → Prop where
  | null : JValid .null
  | bool : ∀ b, JValid (.bool b)
  | num : ∀ n, JValid (.num n)
  | str : ∀ s, StrOk s → JValid (.str s)
  | arr : ∀ vs, (∀ v ∈ vs, JValid v) → JValid (.arr vs)
  | obj : ∀ ms, (ms.map Prod.fst).Nodup → (∀ m ∈ ms, StrOk m.1) →
      (∀ m ∈ ms, JValid m.2) → JValid (.obj ms)

mutual
/-- At least one character is consumed per parser-budget unit. -/
theorem jnodes_le_dumps_length : ∀ (v : JVal) (lvl : Nat),
    jnodes v ≤ (dumps v lvl).length
  | .null, _ => by rw [jnodes, dumps]; decide
  | .bool b, _ => by rw [jnodes, dumps]; cases b <;> decide
  | .num n, _ => by
    rw [jnodes, dumps, intChars]
    have h1 : 1 ≤ (natChars n.natAbs).length := by
      rw [natChars]
      split_ifs
      · decide
      · simp only [List.length_reverse, List.length_map]
        rw [natDigitsRevAux_eq le_rfl]
        have := (Nat.digits_ne_nil_iff_ne_zero (b := 10)).2 (by assumption : n.natAbs ≠ 0)
        cases hd : Nat.digits 10 n.natAbs with
        | nil => exact absurd hd this
        | cons d ds => simp
    split_ifs <;> (simp; try omega)
  | .str s, _ => by rw [jnodes, dumps]; simp
  | .arr [], _ => by rw [jnodes, jnodesL, dumps]; decide
  | .arr (v :: tl), lvl => by
    rw [jnodes, jnodesL, dumps]
    have h1 := jnodes_le_dumps_length v (lvl + 1)
    have h2 := jnodesL_le_dumpsElems_length tl (lvl + 1)
    simp only [List.length_cons, List.length_append]
    omega
  | .obj [], _ => by rw [jnodes, jnodesM, dumps]; decide
  | .obj (m :: tl), lvl => by
    rw [jnodes, jnodesM, dumps]
    have h1 := jnodes_le_dumps_length m.2 (lvl + 1)
    have h2 := jnodesM_le_dumpsMembers_length tl (lvl + 1)
    simp only [List.length_cons, List.length_append]
    omega

theorem jnodesL_le_dumpsElems_length : ∀ (vs : List JVal) (lvl : Nat),
    jnodesL vs ≤ (dumpsElems vs lvl).length
  | [], _ => by rw [jnodesL, dumpsElems]; simp
  | v :: tl, lvl => by
    rw [jnodesL, dumpsElems]
    have h1 := jnodes_le_dumps_length v lvl
    have h2 := jnodesL_le_dumpsElems_length tl lvl
    simp only [List.length_cons, List.length_append]
    omega

theorem jnodesM_le_dumpsMembers_length : ∀ (ms : List (Str × JVal)) (lvl : Nat),
    jnodesM ms ≤ (dumpsMembers ms lvl).length
  | [], _ => by rw [jnodesM, dumpsMembers]; simp
  | m :: tl, lvl => by
    rw [jnodesM, dumpsMembers]
    have h1 := jnodes_le_dumps_length m.2 lvl
    have h2 := jnodesM_le_dumpsMembers_length tl lvl
    simp only [List.length_cons, List.length_append]
    omega
end

/-! ### Round-trip helper lemmas -/

theorem skipWs_append_allWs {pre : Str} (hpre : ∀ c ∈ pre, wsChar c = true) (x : Str) :
    skipWs (pre ++ x) = skipWs x := by
  induction pre with
  | nil => rfl
  | cons c cs ih =>
    rw [List.cons_append, skipWs, List.dropWhile_cons, if_pos (hpre c (by simp))]
    exact ih (fun d hd => hpre d (by simp [hd]))

theorem skipWs_cons_false {c : Char} (hc : wsChar c = false) (x : Str) :
    skipWs (c :: x) = c :: x := by
  rw [skipWs, List.dropWhile_cons, hc]
  simp

theorem ind_allWs (lvl : Nat) : ∀ c ∈ ind lvl, wsChar c = true := by
  intro c hc
  have := List.eq_of_mem_replicate hc
  subst this
  rfl

theorem digitChar_isDigitC : ∀ d < 10, isDigitC (digitChar d) = true := by decide

theorem natChars_isDigitC (n : Nat) : ∀ c ∈ natChars n, isDigitC c = true := by
  intro c hc
  rw [natChars_eq] at hc
  by_cases h : n = 0
  · simp [h] at hc
    subst hc
    decide
  · simp only [h, if_false, List.mem_reverse, List.mem_map] at hc
    obtain ⟨d, hd, rfl⟩ := hc
    exact digitChar_isDigitC d (Nat.digits_lt_base (by norm_num) hd)

theorem natChars_ne_nil (n : Nat) : natChars n ≠ [] := by
  rw [natChars_eq]
  by_cases h : n = 0
  · simp [h]
  · simp only [h, if_false]
    intro hc
    rw [List.reverse_eq_nil_iff, List.map_eq_nil_iff] at hc
    exact absurd hc ((Nat.digits_ne_nil_iff_ne_zero (b := 10)).2 h)

/-- The remaining input may not begin with a digit (so a greedy number parse
stops exactly at the serialized number's end). -/
def RestOk (rest : Str) : Prop := ∀ c, rest.head? = some c → isDigitC c = false

theorem takeWhile_append_all {p : Char → Bool} : ∀ {w : Str} (t : Str),
    (∀ c ∈ w, p c = true) → (w ++ t).takeWhile p = w ++ t.takeWhile p := by
  intro w
  induction w with
  | nil => intro t _; rfl
  | cons c cs ih =>
    intro t hw
    rw [List.cons_append, List.takeWhile_cons, if_pos (hw c (by simp)), List.cons_append,
      ih t (fun d hd => hw d (by simp [hd]))]

theorem dropWhile_append_all {p : Char → Bool} : ∀ {w : Str} (t : Str),
    (∀ c ∈ w, p c = true) → (w ++ t).dropWhile p = t.dropWhile p := by
  intro w
  induction w with
  | nil => intro t _; rfl
  | cons c cs ih =>
    intro t hw
    rw [List.cons_append, List.dropWhile_cons, if_pos (hw c (by simp))]
    exact ih t (fun d hd => hw d (by simp [hd]))

theorem takeWhile_restOk {t : Str} (ht : RestOk t) : t.takeWhile isDigitC = [] := by
  cases t with
  | nil => rfl
  | cons c cs =>
    rw [List.takeWhile_cons, if_neg (by simp [ht c rfl])]

theorem dropWhile_restOk {t : Str} (ht : RestOk t) : t.dropWhile isDigitC = t := by
  cases t with
  | nil => rfl
  | cons c cs =>
    rw [List.dropWhile_cons, if_neg (by simp [ht c rfl])]

theorem parseNat_natChars (n : Nat) {rest : Str} (hrest : RestOk rest) :
    parseNat (natChars n ++ rest) = some (n, rest) := by
  rw [parseNat]
  simp only [takeWhile_append_all rest (natChars_isDigitC n), takeWhile_restOk hrest,
    List.append_nil, dropWhile_append_all rest (natChars_isDigitC n), dropWhile_restOk hrest]
  rw [if_neg (natChars_ne_nil n), charsToNat_natChars]

theorem parseStringBody_backslash (e d : Char) (cs' : Str)
    (hd : (if e = '"' then some '"' else if e = '\\' then some '\\'
           else if e = '/' then some '/' else if e = 'n' then some '\n'
           else if e = 't' then some '\t' else if e = 'r' then some '\r'
           else none : Option Char) = some d) :
    parseStringBody ('\\' :: e :: cs') =
      (match parseStringBody cs' with
       | none => none
       | some (out, rest) => some (d :: out, rest)) := by
  conv_lhs => rw [parseStringBody.eq_def]
  simp only [reduceIte, hd]
  rw [if_neg (show ¬('\\' = '"') by decide)]

theorem parseStringBody_char (c : Char) (cs : Str) (h1 : ¬c = '"') (h2 : ¬c = '\\') :
    parseStringBody (c :: cs) =
      (match parseStringBody cs with
       | none => none
       | some (out, rest) => some (c :: out, rest)) := by
  conv_lhs => rw [parseStringBody.eq_def]
  simp only [if_neg h1, if_neg h2]

theorem parseStringBody_escape : ∀ {s : Str}, StrOk s → ∀ (rest : Str),
    parseStringBody (escape s ++ '"' :: rest) = some (s, rest) := by
  intro s
  induction s with
  | nil =>
    intro _ rest
    rw [show escape ([] : Str) = [] from rfl, List.nil_append]
    rw [parseStringBody.eq_def]
    simp only [reduceIte]
  | cons c cs ih =>
    intro hok rest
    have hcs : StrOk cs := fun d hd => hok d (by simp [hd])
    have ihcs := ih hcs rest
    rw [show escape (c :: cs) = escChar c ++ escape cs from rfl, List.append_assoc]
    rw [escChar]
    by_cases h1 : c = '"'
    · subst h1
      rw [if_pos rfl, List.cons_append, List.cons_append, List.nil_append,
        parseStringBody_backslash '"' '"' _ (by decide), ihcs]
    rw [if_neg h1]
    by_cases h2 : c = '\\'
    · subst h2
      rw [if_pos rfl, List.cons_append, List.cons_append, List.nil_append,
        parseStringBody_backslash '\\' '\\' _ (by decide), ihcs]
    rw [if_neg h2]
    by_cases h3 : c = '\n'
    · subst h3
      rw [if_pos rfl, List.cons_append, List.cons_append, List.nil_append,
        parseStringBody_backslash 'n' '\n' _ (by decide), ihcs]
    rw [if_neg h3]
    by_cases h4 : c = '\t'
    · subst h4
      rw [if_pos rfl, List.cons_append, List.cons_append, List.nil_append,
        parseStringBody_backslash 't' '\t' _ (by decide), ihcs]
    rw [if_neg h4]
    by_cases h5 : c = '\r'
    · subst h5
      rw [if_pos rfl, List.cons_append, List.cons_append, List.nil_append,
        parseStringBody_backslash 'r' '\r' _ (by decide), ihcs]
    rw [if_neg h5]
    rw [List.cons_append, List.nil_append, parseStringBody_char c _ h1 h2, ihcs]

theorem isDigitC_bounds {c : Char} (h : isDigitC c = true) :
    48 ≤ c.toNat ∧ c.toNat ≤ 57 := by
  rw [isDigitC, Bool.and_eq_true, decide_eq_true_eq, decide_eq_true_eq] at h
  exact h

theorem isDigitC_ne {c : Char} (h : isDigitC c = true) :
    wsChar c = false ∧ c ≠ '"' ∧ c ≠ lbrace ∧ c ≠ '[' ∧ c ≠ 't' ∧ c ≠ 'f' ∧
      c ≠ 'n' ∧ c ≠ '-' ∧ c ≠ ']' := by
  obtain ⟨h1, h2⟩ := isDigitC_bounds h
  refine ⟨?_, ?_, ?_, ?_, ?_, ?_, ?_, ?_, ?_⟩
  · rw [wsChar]
    simp only [Bool.or_eq_false_iff, decide_eq_false_iff_not]
    refine ⟨⟨⟨fun hc => ?_, fun hc => ?_⟩, fun hc => ?_⟩, fun hc => ?_⟩ <;>
      (subst hc; revert h1 h2; decide)
  all_goals intro hc; subst hc; revert h1 h2; decide

/-- The first character of a serialized value: never whitespace and never a
closing bracket. -/
theorem dumps_head : ∀ (v : JVal) (lvl : Nat), ∃ c t, dumps v lvl = c :: t ∧
    wsChar c = false ∧ c ≠ ']'
  | .null, _ => ⟨'n', _, rfl, by decide, by decide⟩
  | .bool true, _ => ⟨'t', _, by rw [dumps]; rfl, by decide, by decide⟩
  | .bool false, _ => ⟨'f', _, by rw [dumps]; rfl, by decide, by decide⟩
  | .num n, _ => by
    rw [dumps, intChars]
    by_cases hn : n < 0
    · exact ⟨'-', _, by rw [if_pos hn], by decide, by decide⟩
    · rw [if_neg hn]
      cases hc : natChars n.natAbs with
      | nil => exact absurd hc (natChars_ne_nil _)
      | cons c t =>
        have hd : isDigitC c = true := natChars_isDigitC n.natAbs c (by rw [hc]; simp)
        obtain ⟨hw, -, -, -, -, -, -, -, hne⟩ := isDigitC_ne hd
        exact ⟨c, t, rfl, hw, hne⟩
  | .str s, _ => ⟨'"', _, rfl, by decide, by decide⟩
  | .arr [], _ => ⟨'[', _, rfl, by decide, by decide⟩
  | .arr (v :: tl), _ => ⟨'[', _, rfl, by decide, by decide⟩
  | .obj [], _ => ⟨lbrace, _, rfl, by decide, by decide⟩
  | .obj (m :: tl), _ => ⟨lbrace, _, rfl, by decide, by decide⟩

/-- Tails fed to a value parse during the induction never begin with a digit. -/
theorem restOk_cons {c : Char} (hc : isDigitC c = false) (t : Str) : RestOk (c :: t) := by
  intro d hd
  simp only [List.head?] at hd
  rw [← Option.some_inj.1 hd]
  exact hc

theorem restOk_nil : RestOk [] := by
  intro d hd
  cases hd

/-- The parse-budget statement for one value. -/
def PStmt (pf : Nat) : Prop :=
  ∀ (v : JVal) (lvl : Nat) (pre rest : Str),
    (∀ c ∈ pre, wsChar c = true) → JValid v → jnodes v ≤ pf → RestOk rest →
    parseValueF pf (pre ++ (dumps v lvl ++ rest)) = some (v, rest)

/-- The statement for the member list of a non-empty object. -/
def MStmt (pf : Nat) : Prop :=
  ∀ (k : Str) (v : JVal) (ms : List (Str × JVal)) (lvl : Nat) (rest : Str),
    StrOk k → JValid v → (∀ m ∈ ms, StrOk m.1) → (∀ m ∈ ms, JValid m.2) →
    1 + jnodes v + jnodesM ms ≤ pf → RestOk rest →
    parseMembersF pf
      (('"' :: (escape k ++ ('"' :: ':' :: ' ' :: dumps v (lvl + 1)))) ++
        (dumpsMembers ms (lvl + 1) ++ ('\n' :: (ind lvl ++ (rbrace :: rest))))) =
      some ((k, v) :: ms, rest)

/-- The statement for the element list of a non-empty array. -/
def EStmt (pf : Nat) : Prop :=
  ∀ (v : JVal) (vs : List JVal) (lvl : Nat) (rest : Str),
    JValid v → (∀ w ∈ vs, JValid w) →
    1 + jnodes v + jnodesL vs ≤ pf → RestOk rest →
    parseElemsF pf
      (dumps v (lvl + 1) ++
        (dumpsElems vs (lvl + 1) ++ ('\n' :: (ind lvl ++ (']' :: rest))))) =
      some (v :: vs, rest)

theorem skipWs_dumps (v : JVal) (lvl : Nat) {pre : Str} (rest : Str)
    (hpre : ∀ c ∈ pre, wsChar c = true) :
    skipWs (pre ++ (dumps v lvl ++ rest)) = dumps v lvl ++ rest := by
  obtain ⟨c, t, hct, hws, -⟩ := dumps_head v lvl
  rw [skipWs_append_allWs hpre, hct, List.cons_append, skipWs_cons_false hws]

theorem step_null (pf : Nat) (lvl : Nat) (pre rest : Str)
    (hpre : ∀ c ∈ pre, wsChar c = true) :
    parseValueF (pf + 1) (pre ++ (dumps .null lvl ++ rest)) = some (.null, rest) := by
  rw [parseValueF, skipWs_dumps .null lvl rest hpre]
  rw [show dumps .null lvl ++ rest = 'n' :: (("ull").data ++ rest) from rfl]
  simp only [reduceIte, stripPre_append]
  rw [if_neg (show ('n' : Char) ≠ '"' by decide), if_neg (show ('n' : Char) ≠ lbrace by decide),
    if_neg (show ('n' : Char) ≠ '[' by decide), if_neg (show ('n' : Char) ≠ 't' by decide),
    if_neg (show ('n' : Char) ≠ 'f' by decide)]
  rfl

theorem step_bool (pf : Nat) (b : Bool) (lvl : Nat) (pre rest : Str)
    (hpre : ∀ c ∈ pre, wsChar c = true) :
    parseValueF (pf + 1) (pre ++ (dumps (.bool b) lvl ++ rest)) = some (.bool b, rest) := by
  rw [parseValueF, skipWs_dumps (.bool b) lvl rest hpre]
  cases b
  · rw [show dumps (.bool false) lvl ++ rest = 'f' :: (("alse").data ++ rest) from rfl]
    simp only [reduceIte]
    rw [if_neg (show ('f' : Char) ≠ '"' by decide),
      if_neg (show ('f' : Char) ≠ lbrace by decide),
      if_neg (show ('f' : Char) ≠ '[' by decide), if_neg (show ('f' : Char) ≠ 't' by decide),
      stripPre_append]
    rfl
  · rw [show dumps (.bool true) lvl ++ rest = 't' :: (("rue").data ++ rest) from rfl]
    simp only [reduceIte]
    rw [if_neg (show ('t' : Char) ≠ '"' by decide),
      if_neg (show ('t' : Char) ≠ lbrace by decide),
      if_neg (show ('t' : Char) ≠ '[' by decide), stripPre_append]
    rfl

theorem step_str (pf : Nat) (s : Str) (hs : StrOk s) (lvl : Nat) (pre rest : Str)
    (hpre : ∀ c ∈ pre, wsChar c = true) :
    parseValueF (pf + 1) (pre ++ (dumps (.str s) lvl ++ rest)) = some (.str s, rest) := by
  rw [parseValueF, skipWs_dumps (.str s) lvl rest hpre]
  rw [show dumps (.str s) lvl ++ rest = '"' :: (escape s ++ '"' :: rest) from by
    rw [dumps]; simp [List.append_assoc]]
  simp only [reduceIte]
  rw [parseStringBody_escape hs rest]
  rfl

theorem step_num (pf : Nat) (n : Int) (lvl : Nat) (pre rest : Str)
    (hpre : ∀ c ∈ pre, wsChar c = true) (hrest : RestOk rest) :
    parseValueF (pf + 1) (pre ++ (dumps (.num n) lvl ++ rest)) = some (.num n, rest) := by
  rw [parseValueF, skipWs_dumps (.num n) lvl rest hpre]
  rw [show dumps (.num n) lvl = intChars n from rfl, intChars]
  by_cases hn : n < 0
  · rw [if_pos hn, List.cons_append]
    simp only [reduceIte]
    rw [if_neg (show ('-' : Char) ≠ '"' by decide),
      if_neg (show ('-' : Char) ≠ lbrace by decide),
      if_neg (show ('-' : Char) ≠ '[' by decide), if_neg (show ('-' : Char) ≠ 't' by decide),
      if_neg (show ('-' : Char) ≠ 'f' by decide), if_neg (show ('-' : Char) ≠ 'n' by decide),
      parseNat_natChars n.natAbs hrest]
    show some (JVal.num (-((n.natAbs : Nat) : Int)), rest) = some (JVal.num n, rest)
    rw [show (-((n.natAbs : Nat) : Int)) = n from by omega]
  · rw [if_neg hn]
    cases hc : natChars n.natAbs with
    | nil => exact absurd hc (natChars_ne_nil _)
    | cons c t =>
      have hd : isDigitC c = true := natChars_isDigitC n.natAbs c (by rw [hc]; simp)
      obtain ⟨-, h2, h3, h4, h5, h6, h7, h8, -⟩ := isDigitC_ne hd
      rw [List.cons_append]
      simp only [reduceIte]
      rw [if_neg h2, if_neg h3, if_neg h4, if_neg h5, if_neg h6, if_neg h7, if_neg h8]
      rw [show c :: (t ++ rest) = (c :: t) ++ rest from rfl, ← hc,
        parseNat_natChars n.natAbs hrest]
      show some (JVal.num ((n.natAbs : Nat) : Int), rest) = some (JVal.num n, rest)
      rw [show (((n.natAbs : Nat) : Int)) = n from by omega]

theorem step_arr_nil (pf : Nat) (lvl : Nat) (pre rest : Str)
    (hpre : ∀ c ∈ pre, wsChar c = true) :
    parseValueF (pf + 1) (pre ++ (dumps (.arr []) lvl ++ rest)) = some (.arr [], rest) := by
  rw [parseValueF, skipWs_dumps (.arr []) lvl rest hpre]
  rw [show dumps (.arr []) lvl ++ rest = '[' :: (']' :: rest) from rfl]
  simp only [reduceIte]
  rw [if_neg (show ('[' : Char) ≠ '"' by decide),
    if_neg (show ('[' : Char) ≠ lbrace by decide),
    skipWs_cons_false (show wsChar ']' = false by decide)]
  simp only [reduceIte]

theorem step_obj_nil (pf : Nat) (lvl : Nat) (pre rest : Str)
    (hpre : ∀ c ∈ pre, wsChar c = true) :
    parseValueF (pf + 1) (pre ++ (dumps (.obj []) lvl ++ rest)) = some (.obj [], rest) := by
  rw [parseValueF, skipWs_dumps (.obj []) lvl rest hpre]
  rw [show dumps (.obj []) lvl ++ rest = lbrace :: (rbrace :: rest) from rfl]
  simp only [reduceIte]
  rw [if_neg (show lbrace ≠ '"' by decide),
    skipWs_cons_false (show wsChar rbrace = false by decide)]
  simp only [reduceIte]

theorem skipWs_nl_ind (lvl : Nat) (x : Str) :
    skipWs ('\n' :: (ind lvl ++ x)) = skipWs x := by
  rw [show ('\n' :: (ind lvl ++ x)) = ('\n' :: ind lvl) ++ x from by simp]
  refine skipWs_append_allWs ?_ x
  intro c hc
  rcases List.mem_cons.1 hc with rfl | hmem
  · rfl
  · exact ind_allWs lvl c hmem

theorem skipWs_dumps_self (v : JVal) (lvl : Nat) (x : Str) :
    skipWs (dumps v lvl ++ x) = dumps v lvl ++ x := by
  obtain ⟨c, t, hct, hws, -⟩ := dumps_head v lvl
  rw [hct, List.cons_append, skipWs_cons_false hws]

theorem step_arr_cons (pf : Nat) (hE : EStmt pf) (v : JVal) (tl : List JVal) (lvl : Nat)
    (pre rest : Str) (hpre : ∀ c ∈ pre, wsChar c = true)
    (hv : JValid v) (htl : ∀ w ∈ tl, JValid w)
    (hn : jnodes (.arr (v :: tl)) ≤ pf + 1) (hrest : RestOk rest) :
    parseValueF (pf + 1) (pre ++ (dumps (.arr (v :: tl)) lvl ++ rest)) =
      some (.arr (v :: tl), rest) := by
  rw [parseValueF, skipWs_dumps _ lvl rest hpre]
  have hshape : dumps (.arr (v :: tl)) lvl ++ rest =
      '[' :: '\n' :: (ind (lvl + 1) ++ (dumps v (lvl + 1) ++
        (dumpsElems tl (lvl + 1) ++ ('\n' :: (ind lvl ++ (']' :: rest)))))) := by
    rw [dumps]
    simp [List.append_assoc]
  rw [hshape]
  simp only [reduceIte]
  rw [if_neg (show ('[' : Char) ≠ '"' by decide),
    if_neg (show ('[' : Char) ≠ lbrace by decide),
    skipWs_nl_ind, skipWs_dumps_self]
  obtain ⟨c, t, hct, hws, hne⟩ := dumps_head v (lvl + 1)
  rw [hct, List.cons_append]
  simp only [reduceIte]
  rw [if_neg hne,
    show c :: (t ++ (dumpsElems tl (lvl + 1) ++ ('\n' :: (ind lvl ++ (']' :: rest))))) =
      (c :: t) ++ (dumpsElems tl (lvl + 1) ++ ('\n' :: (ind lvl ++ (']' :: rest)))) from rfl,
    ← hct]
  have hbound : 1 + jnodes v + jnodesL tl ≤ pf := by
    rw [jnodes, jnodesL] at hn
    omega
  rw [hE v tl lvl rest hv htl hbound hrest]

theorem step_obj_cons (pf : Nat) (hM : MStmt pf) (m : Str × JVal) (tl : List (Str × JVal))
    (lvl : Nat) (pre rest : Str) (hpre : ∀ c ∈ pre, wsChar c = true)
    (hk : StrOk m.1) (hv : JValid m.2)
    (htlk : ∀ m' ∈ tl, StrOk m'.1) (htlv : ∀ m' ∈ tl, JValid m'.2)
    (hn : jnodes (.obj (m :: tl)) ≤ pf + 1) (hrest : RestOk rest) :
    parseValueF (pf + 1) (pre ++ (dumps (.obj (m :: tl)) lvl ++ rest)) =
      some (.obj (m :: tl), rest) := by
  rw [parseValueF, skipWs_dumps _ lvl rest hpre]
  have hshape : dumps (.obj (m :: tl)) lvl ++ rest =
      lbrace :: '\n' :: (ind (lvl + 1) ++
        (('"' :: (escape m.1 ++ ('"' :: ':' :: ' ' :: dumps m.2 (lvl + 1)))) ++
          (dumpsMembers tl (lvl + 1) ++ ('\n' :: (ind lvl ++ (rbrace :: rest)))))) := by
    rw [dumps]
    simp [List.append_assoc]
  rw [hshape]
  simp only [reduceIte]
  rw [if_neg (show lbrace ≠ '"' by decide), skipWs_nl_ind, List.cons_append,
    skipWs_cons_false (show wsChar '"' = false by decide)]
  simp only [reduceIte]
  rw [if_neg (show ('"' : Char) ≠ rbrace by decide)]
  have hbound : 1 + jnodes m.2 + jnodesM tl ≤ pf := by
    rw [jnodes, jnodesM] at hn
    omega
  have hMapp := hM m.1 m.2 tl lvl rest hk hv htlk htlv hbound hrest
  rw [List.cons_append] at hMapp
  rw [hMapp]

theorem restOk_membersTail (ms : List (Str × JVal)) (lvl : Nat) (x : Str) :
    RestOk (dumpsMembers ms lvl ++ ('\n' :: x)) := by
  cases ms with
  | nil =>
    rw [dumpsMembers, List.nil_append]
    exact restOk_cons (by decide) _
  | cons m2 tl2 =>
    rw [dumpsMembers, List.cons_append]
    exact restOk_cons (by decide) _

theorem restOk_elemsTail (vs : List JVal) (lvl : Nat) (x : Str) :
    RestOk (dumpsElems vs lvl ++ ('\n' :: x)) := by
  cases vs with
  | nil =>
    rw [dumpsElems, List.nil_append]
    exact restOk_cons (by decide) _
  | cons v2 tl2 =>
    rw [dumpsElems, List.cons_append]
    exact restOk_cons (by decide) _

theorem step_members (pf : Nat) (hP : PStmt pf) (hM : MStmt pf) : MStmt (pf + 1) := by
  intro k v ms lvl rest hk hv hms1 hms2 hn hrest
  rw [parseMembersF.eq_def, List.cons_append]
  simp only [reduceIte]
  have hstr : parseStringBody ((escape k ++ ('"' :: ':' :: ' ' :: dumps v (lvl + 1))) ++
      (dumpsMembers ms (lvl + 1) ++ ('\n' :: (ind lvl ++ (rbrace :: rest))))) =
      some (k, ':' :: ' ' :: (dumps v (lvl + 1) ++
        (dumpsMembers ms (lvl + 1) ++ ('\n' :: (ind lvl ++ (rbrace :: rest)))))) := by
    have := parseStringBody_escape hk (':' :: ' ' :: (dumps v (lvl + 1) ++
      (dumpsMembers ms (lvl + 1) ++ ('\n' :: (ind lvl ++ (rbrace :: rest))))))
    rw [← this]
    congr 1
    simp [List.append_assoc]
  rw [hstr]
  simp only [reduceIte]
  rw [show skipWs (':' :: ' ' :: (dumps v (lvl + 1) ++ (dumpsMembers ms (lvl + 1) ++
      ('\n' :: (ind lvl ++ (rbrace :: rest)))))) = ':' :: ' ' :: (dumps v (lvl + 1) ++
      (dumpsMembers ms (lvl + 1) ++ ('\n' :: (ind lvl ++ (rbrace :: rest)))))
    from skipWs_cons_false (by decide) _]
  simp only [reduceIte]
  have hTailOk : RestOk (dumpsMembers ms (lvl + 1) ++ ('\n' :: (ind lvl ++ (rbrace :: rest)))) :=
    restOk_membersTail ms (lvl + 1) _
  have hbv : jnodes v ≤ pf := by omega
  have hPapp := hP v (lvl + 1) [' ']
    (dumpsMembers ms (lvl + 1) ++ ('\n' :: (ind lvl ++ (rbrace :: rest))))
    (by intro c hc; simp at hc; subst hc; rfl) hv hbv hTailOk
  rw [List.singleton_append] at hPapp
  rw [hPapp]
  simp only [reduceIte]
  cases ms with
  | nil =>
    rw [dumpsMembers, List.nil_append, skipWs_nl_ind,
      skipWs_cons_false (show wsChar rbrace = false by decide)]
    simp only [reduceIte]
    rw [if_neg (show rbrace ≠ ',' by decide)]
  | cons m2 tl2 =>
    rw [dumpsMembers, List.cons_append, skipWs_cons_false (show wsChar ',' = false by decide)]
    simp only [reduceIte]
    have hb2 : 1 + jnodes m2.2 + jnodesM tl2 ≤ pf := by
      rw [jnodesM] at hn
      have := jnodes_pos v
      omega
    have hM2 := hM m2.1 m2.2 tl2 lvl rest (hms1 m2 (by simp)) (hms2 m2 (by simp))
      (fun m' hm' => hms1 m' (by simp [hm'])) (fun m' hm' => hms2 m' (by simp [hm']))
      hb2 hrest
    simp only [List.cons_append, List.append_assoc] at hM2 ⊢
    rw [skipWs_nl_ind, skipWs_cons_false (show wsChar '"' = false by decide), hM2]

theorem step_elems (pf : Nat) (hP : PStmt pf) (hE : EStmt pf) : EStmt (pf + 1) := by
  intro v vs lvl rest hv hvs hn hrest
  rw [parseElemsF.eq_def]
  simp only [reduceIte]
  have hTailOk : RestOk (dumpsElems vs (lvl + 1) ++ ('\n' :: (ind lvl ++ (']' :: rest)))) :=
    restOk_elemsTail vs (lvl + 1) _
  have hbv : jnodes v ≤ pf := by omega
  have hPapp := hP v (lvl + 1) []
    (dumpsElems vs (lvl + 1) ++ ('\n' :: (ind lvl ++ (']' :: rest))))
    (by intro c hc; cases hc) hv hbv hTailOk
  rw [List.nil_append] at hPapp
  rw [hPapp]
  simp only [reduceIte]
  cases vs with
  | nil =>
    rw [dumpsElems, List.nil_append, skipWs_nl_ind,
      skipWs_cons_false (show wsChar ']' = false by decide)]
    simp only [reduceIte]
    rw [if_neg (show (']' : Char) ≠ ',' by decide)]
  | cons v2 tl2 =>
    rw [dumpsElems, List.cons_append, skipWs_cons_false (show wsChar ',' = false by decide)]
    simp only [reduceIte]
    have hb2 : 1 + jnodes v2 + jnodesL tl2 ≤ pf := by
      rw [jnodesL] at hn
      have := jnodes_pos v
      omega
    have hE2 := hE v2 tl2 lvl rest (hvs v2 (by simp)) (fun w hw => hvs w (by simp [hw]))
      hb2 hrest
    simp only [List.cons_append, List.append_assoc] at hE2 ⊢
    rw [skipWs_nl_ind, skipWs_dumps_self, hE2]

theorem parse_dumps_main : ∀ pf : Nat, PStmt pf ∧ MStmt pf ∧ EStmt pf := by
  intro pf
  induction pf with
  | zero =>
    refine ⟨?_, ?_, ?_⟩
    · intro v lvl pre rest _ _ hn _
      have := jnodes_pos v
      omega
    · intro k v ms lvl rest _ _ _ _ hn _
      omega
    · intro v vs lvl rest _ _ hn _
      omega
  | succ pf ih =>
    obtain ⟨ihP, ihM, ihE⟩ := ih
    refine ⟨?_, step_members pf ihP ihM, step_elems pf ihP ihE⟩
    intro v lvl pre rest hpre hval hn hrest
    cases hval with
    | null => exact step_null pf lvl pre rest hpre
    | bool b => exact step_bool pf b lvl pre rest hpre
    | num n => exact step_num pf n lvl pre rest hpre hrest
    | str s hs => exact step_str pf s hs lvl pre rest hpre
    | arr vs hvs =>
      cases vs with
      | nil => exact step_arr_nil pf lvl pre rest hpre
      | cons v0 tl =>
        exact step_arr_cons pf ihE v0 tl lvl pre rest hpre (hvs v0 (by simp))
          (fun w hw => hvs w (by simp [hw])) hn hrest
    | obj ms hnodup hkeys hvals =>
      cases ms with
      | nil => exact step_obj_nil pf lvl pre rest hpre
      | cons m tl =>
        exact step_obj_cons pf ihM m tl lvl pre rest hpre (hkeys m (by simp))
          (hvals m (by simp)) (fun m' hm' => hkeys m' (by simp [hm']))
          (fun m' hm' => hvals m' (by simp [hm'])) hn hrest

/-- **C9**: saving a valid document to formatted JSON
(`json.dumps(..., ensure_ascii=False, indent=2)`) and loading the result back
(`json.loads`) yields a structurally equal document. -/
theorem json_save_load_roundtrip (v : JVal) (h : JValid v) :
    jsonParse (jsonDumps v) = some v := by
  rw [jsonParse, jsonDumps]
  have hbound : jnodes v ≤ (dumps v 0).length + 1 :=
    le_trans (jnodes_le_dumps_length v 0) (by omega)
  have hP := (parse_dumps_main ((dumps v 0).length + 1)).1 v 0 [] []
    (by intro c hc; cases hc) h hbound restOk_nil
  rw [List.nil_append, List.append_nil] at hP
  rw [hP]
  rfl

/-- A concrete configuration-shaped JSON document. -/
def sampleJson : JVal :=
  .obj [(("site").data, .obj [(("title").data, .str ("LP ビルダー").data)]),
        (("rank").data, .num (-3)),
        (("flags").data, .arr [.bool true, .null])]

theorem json_save_load_roundtrip_witness :
    JValid sampleJson ∧ jsonParse (jsonDumps sampleJson) = some sampleJson := by
  have hv : JValid sampleJson := by
    refine JValid.obj _ (by decide) ?_ ?_
    · intro m hm
      simp only [sampleJson, List.mem_cons, List.not_mem_nil, or_false] at hm
      rcases hm with rfl | rfl | rfl <;> decide
    · intro m hm
      simp only [sampleJson, List.mem_cons, List.not_mem_nil, or_false] at hm
      rcases hm with rfl | rfl | rfl
      · refine JValid.obj _ (by decide) ?_ ?_
        · intro m' hm'
          simp only [List.mem_cons, List.not_mem_nil, or_false] at hm'
          rcases hm' with rfl
          decide
        · intro m' hm'
          simp only [List.mem_cons, List.not_mem_nil, or_false] at hm'
          rcases hm' with rfl
          exact JValid.str _ (by decide)
      · exact JValid.num _
      · refine JValid.arr _ ?_
        intro w hw
        simp only [List.mem_cons, List.not_mem_nil, or_false] at hw
        rcases hw with rfl | rfl
        · exact JValid.bool _
        · exact JValid.null
  exact ⟨hv, json_save_load_roundtrip sampleJson hv⟩

/-- The session as the JSON-load toolbar action sees it: the current document
and any surfaced error banner. -/
structure JSession where
  config : JVal
  last_error : Option Str

/-- The `JSON読込` handler: `json.loads` the upload inside `try`; on success
replace the session document, on failure call `st.error` and leave the
document untouched. -/
def handle_json_upload (s : JSession) (payload : Str) : JSession :=
  match jsonParse payload with
  | some loaded => { config := loaded, last_error := none }
  | none => { s with last_error := some (("読み込みエラー").data) }

/-- **C8**: when an uploaded document fails to parse as JSON, an error is
surfaced and the in-session document is unchanged — the load is never
partially applied. -/
theorem load_failure_leaves_document (s : JSession) (payload : Str)
    (h : (jsonParse payload).isNone = true) :
    (handle_json_upload s payload).config = s.config ∧
    ((handle_json_upload s payload).last_error).isSome = true := by
  rw [handle_json_upload, Option.isNone_iff_eq_none.1 h]
  exact ⟨rfl, rfl⟩

theorem load_failure_leaves_document_witness :
    (jsonParse (("not valid json").data)).isNone = true ∧
    (handle_json_upload ⟨JVal.null, none⟩ (("not valid json").data)).config = JVal.null :=
  ⟨by decide, (load_failure_leaves_document ⟨JVal.null, none⟩ (("not valid json").data)
    (by decide)).1⟩
